import Mathlib

/-!
# chiaharvestgraph: the window of quarter-hours

A shallow embedding of the bucket store of `chiaharvestgraph.c` (the global array
`quarters`, `init_quarters`, `shift_quarters`, `too_old`, `too_new`, `quarterslot`,
`add_entry`), of the acceptance block of `analyze_line` and of `draw_column`.

Conventions of the embedding.

* `time_t` values (64 bit seconds since the epoch) are mathematical integers (`Int`).
  C division `/` truncates toward zero and is `Int.tdiv`.  The narrowing conversion of
  the `time_t` expression returned by `quarterslot` to `int` is explicit (`to_int`).
* The `int` arithmetic of `draw_column` (the sums `checks`, `eligib`, `proofs`, the
  products `900 * ...`, the quotients by `h`, the offset `y*imw`) is 32 bit two's
  complement: every result is reduced by `to_int`, which is what the usual builds do on
  overflow.  Its `uint32_t` pixel arithmetic is taken modulo `2 ^ 32`.
* The four parallel arrays `stamps`, `eligib`, `proofs`, `durati` of a `quarterhr_t`,
  together with the fill count `sz`, are the list of their first `sz` slots.
* The global array `quarterhr_t quarters[ MAXHIST ]` is a list of length `MAXHIST`.
* `assert` either passes or ends the run; a function that may hit an assertion returns
  `Except Assertion _`.
-/

namespace ChiaHarvestGraph

/-- `MAXHIST`, a week of quarter-hours. -/
def MAXHIST : Nat := 4 * 24 * 7

/-- `MAXENTR`, the capacity of one quarter-hour. -/
def MAXENTR : Nat := 12 * 15

/-- `INT_MAX` of a 32 bit `int`. -/
def INT_MAX : Int := 2147483647

/-- Conversion of a wider integer to a 32 bit two's complement `int`. -/
def to_int (x : Int) : Int := (x + 2147483648) % 4294967296 - 2147483648

/-- Slot `i` of the arrays `stamps`, `eligib`, `proofs`, `durati`; `durati` is the bit
pattern of the `float`, on which no arithmetic is done here. -/
structure entry where
  stamp : Int
  eligib : Int
  proofs : Int
  durati : Nat
deriving DecidableEq, Repr

/-- The struct `quarterhr_t`: `entries` are the slots below `sz`. -/
structure quarterhr where
  entries : List entry
  timelo : Int
  timehi : Int
deriving DecidableEq, Repr

/-- The field `sz`. -/
def quarterhr.sz (q : quarterhr) : Int := q.entries.length

/-- An all-zero `quarterhr_t` (static storage, or after `memset`). -/
def quarterhr.zero : quarterhr := { entries := [], timelo := 0, timehi := 0 }

/-- The type of the global `quarterhr_t quarters[ MAXHIST ]`. -/
abbrev Quarters := { qs : List quarterhr // qs.length = MAXHIST }

/-- Read of `quarters[ i ]`. -/
def Quarters.at (quarters : Quarters) (i : Nat) : quarterhr :=
  quarters.val.getD i quarterhr.zero

/-- Write of `quarters[ i ]`. -/
def Quarters.put (quarters : Quarters) (i : Nat) (q : quarterhr) : Quarters :=
  ⟨quarters.val.set i q, by rw [List.length_set]; exact quarters.property⟩

/-- The zero-initialised global array. -/
def quarters_zero : Quarters := ⟨List.replicate MAXHIST quarterhr.zero, List.length_replicate _ _⟩

/-- `init_quarters`: the loop runs `i` from `MAXHIST-1` down to `0`. -/
def init_quarters (now : Int) : Quarters :=
  let q := Int.tdiv now 900
  let q_lo := (q + 0) * 900
  let q_hi := (q + 1) * 900
  (List.range MAXHIST).reverse.foldl
    (fun quarters (i : Nat) =>
      let ir : Int := (MAXHIST : Int) - 1 - (i : Int)
      quarters.put i { entries := [], timelo := q_lo - 900 * ir, timehi := q_hi - 900 * ir })
    quarters_zero

/-- `shift_quarters`: copy loop, `memset` of the last element, then its two bounds. -/
def shift_quarters (quarters : Quarters) : Quarters :=
  let moved := (List.range (MAXHIST - 1)).foldl
    (fun qs i => qs.put i (qs.at (i + 1))) quarters
  let last := MAXHIST - 1
  let cleared := moved.put last quarterhr.zero
  let withlo := cleared.put last
    { cleared.at last with timelo := (cleared.at (last - 1)).timelo + 900 }
  withlo.put last { withlo.at last with timehi := (withlo.at (last - 1)).timehi + 900 }

/-- `too_old`. -/
def too_old (quarters : Quarters) (t : Int) : Bool :=
  decide (t < (quarters.at 0).timelo)

/-- `too_new`. -/
def too_new (quarters : Quarters) (t : Int) : Bool :=
  let last := MAXHIST - 1
  decide (t ≥ (quarters.at last).timehi)

/-- `quarterslot`. -/
def quarterslot (quarters : Quarters) (tim : Int) : Int :=
  let last := MAXHIST - 1
  let d := tim - (quarters.at last).timehi
  if d ≥ 0 then INT_MAX
  else to_int ((MAXHIST : Int) - 1 + Int.tdiv d 900)

/-! ### Facts about the copy loop, needed for the termination of the catch-up loop -/

theorem put_val (w : Quarters) (i : Nat) (q : quarterhr) :
    (w.put i q).val = w.val.set i q := rfl

theorem at_put (w : Quarters) (i j : Nat) (q : quarterhr) (hi : i < MAXHIST) :
    (w.put i q).at j = if i = j then q else w.at j := by
  have hl := w.property
  simp only [Quarters.at, Quarters.put, List.getD_eq_getElem?_getD, List.getElem?_set]
  by_cases h : i = j
  · subst h
    simp [hl, hi]
  · simp [h]

theorem at_move_loop (w : Quarters) (k : Nat) (hk : k < MAXHIST) :
    ∀ j : Nat,
    ((List.range k).foldl (fun qs i => Quarters.put qs i (Quarters.at qs (i + 1))) w).at j
      = if j < k then w.at (j + 1) else w.at j := by
  induction k with
  | zero => simp
  | succ k ih =>
    intro j
    rw [List.range_succ, List.foldl_append]
    simp only [List.foldl_cons, List.foldl_nil]
    rw [at_put _ _ _ _ (by omega)]
    have ih1 := ih (by omega)
    by_cases h : k = j
    · subst h
      rw [if_pos rfl, if_pos (by omega), ih1, if_neg (by omega)]
    · rw [if_neg h, ih1]
      by_cases h2 : j < k
      · rw [if_pos h2, if_pos (by omega)]
      · rw [if_neg h2, if_neg (by omega)]

theorem MAXHIST_eq : MAXHIST = 672 := rfl

theorem MAXENTR_eq : MAXENTR = 180 := rfl

theorem MAXHIST_pred : MAXHIST - 1 = 671 := rfl

theorem MAXHIST_cast : (MAXHIST : Int) = 672 := rfl

/-- The element appended by `shift_quarters` after `q`. -/
def quarterhr.next (q : quarterhr) : quarterhr :=
  { entries := [], timelo := q.timelo + 900, timehi := q.timehi + 900 }

theorem at_shift_last (w : Quarters) :
    (shift_quarters w).at (MAXHIST - 1) = (w.at (MAXHIST - 1)).next := by
  have hM := MAXHIST_eq
  have hl : MAXHIST - 1 < MAXHIST := by omega
  have hne : ¬ (MAXHIST - 1 = MAXHIST - 1 - 1) := by omega
  have hlt : MAXHIST - 1 - 1 < MAXHIST - 1 := by omega
  have h1 : MAXHIST - 1 - 1 + 1 = MAXHIST - 1 := by omega
  simp only [shift_quarters, at_put _ _ _ _ hl, if_true, if_neg hne, at_move_loop _ _ hl,
    if_pos hlt, h1, quarterhr.next, quarterhr.zero]

theorem at_shift_lt (w : Quarters) (j : Nat) (hj : j < MAXHIST - 1) :
    (shift_quarters w).at j = w.at (j + 1) := by
  have hl : MAXHIST - 1 < MAXHIST := by omega
  have hne : ¬ (MAXHIST - 1 = j) := by omega
  simp only [shift_quarters, at_put _ _ _ _ hl, if_neg hne, at_move_loop _ _ hl, if_pos hj]

/-- The `while ( too_new( t ) ) shift_quarters();` loop of `add_entry`: the number of
calls of `shift_quarters` and the array afterwards. -/
def catch_up (t : Int) (quarters : Quarters) : Nat × Quarters :=
  if too_new quarters t then
    let r := catch_up t (shift_quarters quarters)
    (r.1 + 1, r.2)
  else (0, quarters)
termination_by (t - (quarters.at (MAXHIST - 1)).timehi + 1).toNat
decreasing_by
  rename_i h
  simp only [too_new, decide_eq_true_eq] at h
  rw [at_shift_last]
  simp only [quarterhr.next]
  omega

/-- The assertions of `add_entry`. -/
inductive Assertion where
  | slot_nonneg
  | slot_lt_MAXHIST
  | sz_lt_MAXENTR
deriving DecidableEq, Repr

/-- `add_entry`: the returned `int` and the array afterwards, or the assertion that
failed. -/
def add_entry (quarters : Quarters) (t eligi proof : Int) (durat : Nat) :
    Except Assertion (Int × Quarters) :=
  let quarters := (catch_up t quarters).2
  if too_old quarters t then .ok (0, quarters)
  else
    let s := quarterslot quarters t
    if ¬ (s ≥ 0) then .error .slot_nonneg
    else if ¬ (s < MAXHIST) then .error .slot_lt_MAXHIST
    else
      let i := (quarters.at s.toNat).sz
      if ¬ (i < MAXENTR) then .error .sz_lt_MAXENTR
      else
        let q := quarters.at s.toNat
        .ok (1, quarters.put s.toNat
          { q with entries := q.entries ++
              [{ stamp := t, eligib := eligi, proofs := proof, durati := durat }] })

/-- The globals touched by the acceptance block of `analyze_line`. -/
structure Globals where
  quarters : Quarters
  entries_added : Int
  newest_stamp : Int

/-- The block `if ( logtim > newest_stamp ) ... else ...` of `analyze_line`, run on the
fields `logtim`, `eligi`, `proof`, `durat` of a line that `sscanf` matched in full.
Parsing, `mktime` and the assertion on its result come before and are not part of it. -/
def analyze_line (g : Globals) (logtim eligi proof : Int) (durat : Nat) :
    Except Assertion Globals :=
  if logtim > g.newest_stamp then
    match add_entry g.quarters logtim eligi proof durat with
    | .error a => .error a
    | .ok (added, quarters) =>
      .ok { quarters := quarters
            entries_added := g.entries_added + added
            newest_stamp := if added ≠ 0 then logtim else g.newest_stamp }
  else .ok g

/-- The globals at the first call of `analyze_line`: `init_quarters( time(0) )` has run,
`entries_added` and `newest_stamp` still hold their initialiser `0`. -/
def Globals.start (now : Int) : Globals :=
  { quarters := init_quarters now, entries_added := 0, newest_stamp := 0 }

/-- `a + b` on 32 bit `int`: the sum reduced to the two's complement range. -/
def int_add (a b : Int) : Int := to_int (a + b)

/-- `a - b` on 32 bit `int`. -/
def int_sub (a b : Int) : Int := to_int (a - b)

/-- `a * b` on 32 bit `int`. -/
def int_mul (a b : Int) : Int := to_int (a * b)

/-- `a / b` on 32 bit `int`: C division, which truncates toward zero. -/
def int_div (a b : Int) : Int := to_int (Int.tdiv a b)

/-- Body of the loop `for ( int i=0; i<sz; ++i )` of `draw_column`, on the running
values of the `int` variables `checks`, `eligib` and `proofs` and the slot `i` of the
element. -/
def row_step (r0 r1 s0 s1 : Int) (acc : Int × Int × Int) (e : entry) : Int × Int × Int :=
  let t := e.stamp
  let checks := if t ≥ r0 ∧ t < r1 then int_add acc.1 1 else acc.1
  if t ≥ s0 ∧ t < s1 then (checks, int_add acc.2.1 e.eligib, int_add acc.2.2 e.proofs)
  else (checks, acc.2.1, acc.2.2)

/-- One iteration `y` of the row loop of `draw_column`: the offset `y*imw` into `img`
and the pixel stored there.  The arguments `h` and `y` are `int`; the products
`900 * ...`, the quotients by `h` and the offset `y*imw` are computed in `int` before
they are added to the `time_t` `qlo` or used as an index.

Parameters standing for what the file takes from elsewhere: `ramp idx c` is
`ramp[idx][c]` (`colourmaps.h`), `imw` the `int` image width (`grapher.h`).  The `float`
computation `(uint8_t) ( achieved * 255 )` from `checks` and `span` is the parameter
`ramp_index checks span`, reduced to the range of `uint8_t`. -/
def draw_row (ramp : Nat → Nat → Nat) (ramp_index : Int → Int → Nat) (imw : Int)
    (qu : quarterhr) (h y : Int) : Int × Nat :=
  let qlo := qu.timelo
  let band := (Int.tdiv (Int.tdiv qlo 900) 4) % 2
  let y0 := if y > 0 then int_sub y 1 else int_add y 0
  let y1 := if y < int_sub h 1 then int_add y 2 else int_add y 1
  let r0 := qlo + int_div (int_mul 900 y0) h
  let r1 := qlo + int_div (int_mul 900 y1) h
  let s0 := qlo + int_div (int_mul 900 (int_add y 0)) h
  let s1 := qlo + int_div (int_mul 900 (int_add y 1)) h
  let sums := qu.entries.foldl (row_step r0 r1 s0 s1) (0, 0, 0)
  let checks := sums.1
  let proofs := sums.2.2
  let span := r1 - r0
  let idx := ramp_index checks span % 256
  let red := ramp idx 0 % 4294967296
  let grn := ramp idx 1 % 4294967296
  let blu := ramp idx 2 % 4294967296
  let red := if band ≠ 0 then red * 200 % 4294967296 / 255 else red
  let grn := if band ≠ 0 then grn * 200 % 4294967296 / 255 else grn
  let blu := if band ≠ 0 then blu * 200 % 4294967296 / 255 else blu
  let red := if proofs ≠ 0 then 0x40 else red
  let grn := if proofs ≠ 0 then 0x40 else grn
  let blu := if proofs ≠ 0 then 0xff else blu
  let c := ((0xff <<< 24) % 4294967296) ||| ((blu <<< 16) % 4294967296)
    ||| ((grn <<< 8) % 4294967296) ||| ((red <<< 0) % 4294967296)
  (int_mul y imw, c)

/-- `draw_column`: the stores `img[ y*imw ] = c` in the order of the loop, as pairs of
offset and pixel; no store when `q<0`. -/
def draw_column (ramp : Nat → Nat → Nat) (ramp_index : Int → Int → Nat) (imw : Int)
    (quarters : Quarters) (nr : Int) (h : Int) : List (Int × Nat) :=
  let q : Int := int_sub (int_sub (MAXHIST : Int) 1) nr
  if q < 0 then []
  else (List.range h.toNat).map
    (fun (y : Nat) => draw_row ramp ramp_index imw (quarters.at q.toNat) h (y : Int))

/-! ## Vocabulary of the properties -/

/-- The window invariant: every element spans 900 seconds and consecutive elements
meet. -/
def Contiguous (w : Quarters) : Prop :=
  (∀ i, i < MAXHIST → (w.at i).timehi - (w.at i).timelo = 900) ∧
  (∀ i, i + 1 < MAXHIST → (w.at i).timehi = (w.at (i + 1)).timelo)

/-- Upper bound of the newest element, `quarters[MAXHIST-1].timehi`. -/
def newest_hi (w : Quarters) : Int := (w.at (MAXHIST - 1)).timehi

/-- Lower bound of the oldest element, `quarters[0].timelo`. -/
def oldest_lo (w : Quarters) : Int := (w.at 0).timelo

/-- Closed form of the index computed by `quarterslot` for a stamp below the newest
upper bound. -/
def slot_of (w : Quarters) (t : Int) : Int := 671 - (newest_hi w - t) / 900

/-- The element `q` after the stores of `add_entry`. -/
def quarterhr.push (q : quarterhr) (t eligi proof : Int) (durat : Nat) : quarterhr :=
  { q with entries := q.entries ++
      [{ stamp := t, eligib := eligi, proofs := proof, durati := durat }] }

/-- Number of `shift_quarters` calls the catch-up loop needs for `t`. -/
def advances (w : Quarters) (t : Int) : Nat :=
  if newest_hi w ≤ t then ((t - newest_hi w) / 900 + 1).toNat else 0

/-- The windows that `init_quarters( now )` followed by any finite sequence of returning
`shift_quarters` and `add_entry` calls can produce. -/
inductive Reach (now : Int) : Quarters → Prop where
  | init : Reach now (init_quarters now)
  | shift {w : Quarters} : Reach now w → Reach now (shift_quarters w)
  | add {w w' : Quarters} {t eligi proof r : Int} {durat : Nat} :
      Reach now w → add_entry w t eligi proof durat = .ok (r, w') → Reach now w'

/-- All stored entries, read from `quarters[0]` to `quarters[MAXHIST-1]` and, within an
element, from slot `0` to slot `sz-1`. -/
def stored (w : Quarters) : List entry := w.val.flatMap (fun q => q.entries)

/-- Concatenation of `f 0`, ..., `f (n-1)`. -/
def gather {α : Type} (f : Nat → List α) : Nat → List α
  | 0 => []
  | n + 1 => gather f n ++ f n

/-- The stored stamps in the order of `stored`. -/
def stamps (w : Quarters) : List Int := (stored w).map (fun e => e.stamp)

/-- The globals that calls of the acceptance block reach from `Globals.start now`. -/
inductive Accepted (now : Int) : Globals → Prop where
  | start : Accepted now (Globals.start now)
  | step {g g' : Globals} {logtim eligi proof : Int} {durat : Nat} :
      Accepted now g → analyze_line g logtim eligi proof durat = .ok g' → Accepted now g'

/-- The invariant of the acceptance block: the window is contiguous, every stored stamp is
above the lower bound of its element and at most the mark, and the stamps increase
strictly in the order of `stored`. -/
def Ordered (g : Globals) : Prop :=
  Contiguous g.quarters ∧
  (∀ i, i < MAXHIST → ∀ x ∈ (g.quarters.at i).entries, (g.quarters.at i).timelo < x.stamp) ∧
  (∀ x ∈ stored g.quarters, x.stamp ≤ g.newest_stamp) ∧
  (stamps g.quarters).Pairwise (fun a b => a < b)

/-- The acceptance block run on the matched lines of a log, in file order; an assertion
failure ends the run. -/
def feed (g : Globals) : List (Int × Int × Int × Nat) → Except Assertion Globals
  | [] => .ok g
  | (logtim, eligi, proof, durat) :: rest =>
    match analyze_line g logtim eligi proof durat with
    | .error a => .error a
    | .ok g' => feed g' rest

/-- The first `n` matched lines of a burst: one event per second from `1620896401`
(2021-05-13T09:00:01Z) on, each with 5 eligible plots, no proof and duration bits 0. -/
def burst (n : Nat) : List (Int × Int × Int × Nat) :=
  (List.range n).map (fun (i : Nat) => ((1620896401 : Int) + (i : Int), (5 : Int), (0 : Int), 0))

/-- A window whose newest element holds one event with one proof, stamped one second
into the quarter-hour. -/
def proof_quarters : Quarters :=
  (init_quarters 1620897275).put 671
    { entries := [{ stamp := 1620896401, eligib := 5, proofs := 1, durati := 0 }]
      timelo := 1620896400
      timehi := 1620897300 }

/-- The sum, as a mathematical integer, of the proof counts of the entries of `l` whose
stamp lies in `[s0, s1)`. -/
def proofs_in (s0 s1 : Int) (l : List entry) : Int :=
  ((l.filter (fun e => decide (s0 ≤ e.stamp ∧ e.stamp < s1))).map (fun e => e.proofs)).sum

/-- Three matched lines in consecutive seconds whose proof counts, each within `int`,
add up to `2 ^ 32`. -/
def wrap_lines : List (Int × Int × Int × Nat) :=
  [(1620896401, 5, 2147483647, 0), (1620896402, 5, 2147483647, 0), (1620896403, 5, 2, 0)]

/-- A window whose newest element holds one event with one proof, stamped in the last
second of the quarter-hour. -/
def late_quarters : Quarters :=
  (init_quarters 1620897275).put 671
    { entries := [{ stamp := 1620897299, eligib := 5, proofs := 1, durati := 0 }]
      timelo := 1620896400
      timehi := 1620897300 }

/-! ## Properties -/

theorem at_put_loop (f : Nat → quarterhr) (is : List Nat) (his : ∀ i ∈ is, i < MAXHIST) :
    ∀ (w : Quarters) (j : Nat),
    (is.foldl (fun qs i => Quarters.put qs i (f i)) w).at j
      = if j ∈ is then f j else w.at j := by
  induction is with
  | nil => intro w j; simp
  | cons i is ih =>
    intro w j
    have hi : i < MAXHIST := his i (List.mem_cons_self _ _)
    rw [List.foldl_cons, ih (fun x hx => his x (List.mem_cons_of_mem _ hx)), at_put _ _ _ _ hi]
    by_cases h1 : j ∈ is
    · simp [h1]
    · by_cases h2 : i = j
      · subst h2; simp
      · have h3 : ¬ j = i := fun h => h2 h.symm
        simp [h1, h2, h3]

theorem at_init (now : Int) (j : Nat) (hj : j < MAXHIST) :
    (init_quarters now).at j =
      { entries := []
        timelo := Int.tdiv now 900 * 900 - 900 * (671 - (j : Int))
        timehi := (Int.tdiv now 900 + 1) * 900 - 900 * (671 - (j : Int)) } := by
  have hM := MAXHIST_eq
  simp only [init_quarters]
  rw [at_put_loop _ _ (by intro i hi; simpa using hi)]
  rw [if_pos (by simpa using hj)]
  simp [hM]

theorem tdiv_bounds (a : Int) (ha : 0 ≤ a) : Int.tdiv a 900 * 900 ≤ a ∧ a < (Int.tdiv a 900 + 1) * 900 := by
  rw [Int.tdiv_eq_ediv ha (by norm_num)]
  omega

theorem contiguous_init (now : Int) : Contiguous (init_quarters now) := by
  have hM := MAXHIST_eq
  constructor
  · intro i hi
    rw [at_init now i hi]
    simp only
    ring
  · intro i hi
    rw [at_init now i (by omega), at_init now (i + 1) hi]
    simp only
    push_cast
    ring

theorem contiguous_shift (w : Quarters) (hw : Contiguous w) : Contiguous (shift_quarters w) := by
  have hM := MAXHIST_eq
  obtain ⟨h1, h2⟩ := hw
  constructor
  · intro i hi
    by_cases hlast : i = MAXHIST - 1
    · subst hlast
      rw [at_shift_last]
      have := h1 (MAXHIST - 1) (by omega)
      simp only [quarterhr.next]
      omega
    · rw [at_shift_lt w i (by omega)]
      exact h1 (i + 1) (by omega)
  · intro i hi
    by_cases hlast : i + 1 = MAXHIST - 1
    · rw [hlast, at_shift_last, at_shift_lt w i (by omega), hlast]
      have := h1 (MAXHIST - 1) (by omega)
      simp only [quarterhr.next]
      omega
    · rw [at_shift_lt w i (by omega), at_shift_lt w (i + 1) (by omega)]
      exact h2 (i + 1) (by omega)

theorem contiguous_bounds (w : Quarters) (hw : Contiguous w) :
    ∀ k : Nat, k < MAXHIST →
      (w.at (MAXHIST - 1 - k)).timehi = newest_hi w - 900 * (k : Int) ∧
      (w.at (MAXHIST - 1 - k)).timelo = newest_hi w - 900 * (k : Int) - 900 := by
  have hM := MAXHIST_eq
  obtain ⟨h1, h2⟩ := hw
  intro k
  induction k with
  | zero =>
    intro _
    have := h1 (MAXHIST - 1) (by omega)
    simp only [newest_hi, Nat.sub_zero]
    omega
  | succ k ih =>
    intro hk
    have ihk := ih (by omega)
    have e1 := h1 (MAXHIST - 1 - (k + 1)) (by omega)
    have e2 := h2 (MAXHIST - 1 - (k + 1)) (by omega)
    have e3 : MAXHIST - 1 - (k + 1) + 1 = MAXHIST - 1 - k := by omega
    rw [e3] at e2
    push_cast
    omega

theorem contiguous_at (w : Quarters) (hw : Contiguous w) (i : Nat) (hi : i < MAXHIST) :
    (w.at i).timehi = newest_hi w - 900 * (671 - (i : Int)) ∧
    (w.at i).timelo = newest_hi w - 900 * (672 - (i : Int)) := by
  have hM := MAXHIST_eq
  have h := contiguous_bounds w hw (MAXHIST - 1 - i) (by omega)
  have e : MAXHIST - 1 - (MAXHIST - 1 - i) = i := by omega
  rw [e] at h
  have e2 : ((MAXHIST - 1 - i : Nat) : Int) = 671 - (i : Int) := by omega
  rw [e2] at h
  omega

theorem oldest_lo_eq (w : Quarters) (hw : Contiguous w) :
    oldest_lo w = newest_hi w - 604800 := by
  have h := (contiguous_at w hw 0 (by rw [MAXHIST_eq]; omega)).2
  simp only [oldest_lo]
  omega

theorem newest_hi_shift (w : Quarters) : newest_hi (shift_quarters w) = newest_hi w + 900 := by
  simp only [newest_hi, at_shift_last, quarterhr.next]

theorem catch_up_stay (t : Int) (w : Quarters) (h : t < newest_hi w) :
    catch_up t w = (0, w) := by
  rw [catch_up]
  have : too_new w t = false := by
    simp only [too_new, decide_eq_false_iff_not]
    simp only [newest_hi] at h
    omega
  simp [this]

theorem catch_up_step (t : Int) (w : Quarters) (h : newest_hi w ≤ t) :
    catch_up t w = ((catch_up t (shift_quarters w)).1 + 1, (catch_up t (shift_quarters w)).2) := by
  rw [catch_up]
  have : too_new w t = true := by
    simp only [too_new, decide_eq_true_eq]
    simp only [newest_hi] at h
    omega
  simp [this]

theorem catch_up_eq (t : Int) : ∀ (k : Nat) (w : Quarters),
    newest_hi w + 900 * (k : Int) ≤ t → t < newest_hi w + 900 * (k : Int) + 900 →
    catch_up t w = (k + 1, shift_quarters^[k + 1] w) := by
  intro k
  induction k with
  | zero =>
    intro w h1 h2
    rw [catch_up_step t w (by omega), catch_up_stay t _ (by rw [newest_hi_shift]; omega)]
    rfl
  | succ k ih =>
    intro w h1 h2
    rw [catch_up_step t w (by omega)]
    rw [ih (shift_quarters w) (by rw [newest_hi_shift]; push_cast at h1; omega)
      (by rw [newest_hi_shift]; push_cast at h2; omega)]
    rfl

theorem at_iterate_shift (w : Quarters) : ∀ (k j : Nat), j < MAXHIST →
    (shift_quarters^[k] w).at j =
      if j + k < MAXHIST then w.at (j + k)
      else { entries := []
             timelo := (w.at (MAXHIST - 1)).timelo + 900 * ((j : Int) + k - 671)
             timehi := (w.at (MAXHIST - 1)).timehi + 900 * ((j : Int) + k - 671) } := by
  have hM := MAXHIST_eq
  intro k
  induction k with
  | zero => intro j hj; simp [hj]
  | succ k ih =>
    intro j hj
    rw [Function.iterate_succ_apply']
    by_cases hlast : j = MAXHIST - 1
    · subst hlast
      rw [at_shift_last, ih (MAXHIST - 1) (by omega)]
      have hn : ¬ (MAXHIST - 1 + (k + 1) < MAXHIST) := by omega
      rw [if_neg hn]
      by_cases hk : k = 0
      · subst hk
        simp [quarterhr.next, hM]
      · have hn2 : ¬ (MAXHIST - 1 + k < MAXHIST) := by omega
        rw [if_neg hn2]
        simp only [quarterhr.next, quarterhr.mk.injEq, true_and]
        constructor <;> push_cast <;> omega
    · rw [at_shift_lt _ j (by omega), ih (j + 1) (by omega)]
      by_cases hjk : j + 1 + k < MAXHIST
      · have hp : j + (k + 1) < MAXHIST := by omega
        rw [if_pos hjk, if_pos hp]
        congr 1
        omega
      · have hn3 : ¬ (j + (k + 1) < MAXHIST) := by omega
        rw [if_neg hjk, if_neg hn3]
        simp only [quarterhr.mk.injEq, true_and]
        constructor <;> push_cast <;> omega

theorem contiguous_iterate (w : Quarters) (hw : Contiguous w) (k : Nat) :
    Contiguous (shift_quarters^[k] w) := by
  induction k with
  | zero => exact hw
  | succ k ih =>
    rw [Function.iterate_succ_apply']
    exact contiguous_shift _ ih

theorem newest_hi_iterate (w : Quarters) (k : Nat) :
    newest_hi (shift_quarters^[k] w) = newest_hi w + 900 * (k : Int) := by
  induction k with
  | zero => simp
  | succ k ih =>
    rw [Function.iterate_succ_apply', newest_hi_shift, ih]
    push_cast
    ring

theorem to_int_id (x : Int) (h1 : -2147483648 ≤ x) (h2 : x < 2147483648) : to_int x = x := by
  unfold to_int
  omega

theorem tdiv_neg_900 (d : Int) (hd : d < 0) : Int.tdiv d 900 = -((-d) / 900) := by
  have h : d = -(-d) := by omega
  rw [h, Int.neg_tdiv, Int.tdiv_eq_ediv (by omega) (by norm_num)]
  simp

theorem quarterslot_eq (w : Quarters) (hw : Contiguous w) (t : Int)
    (h1 : oldest_lo w ≤ t) (h2 : t < newest_hi w) : quarterslot w t = slot_of w t := by
  have hlo := oldest_lo_eq w hw
  have hM := MAXHIST_eq
  unfold quarterslot slot_of
  simp only [newest_hi, MAXHIST_pred, MAXHIST_cast] at *
  have hd : ¬ (t - (w.at 671).timehi ≥ 0) := by omega
  rw [if_neg hd, tdiv_neg_900 _ (by omega), to_int_id] <;> omega

theorem slot_of_spec (w : Quarters) (hw : Contiguous w) (t : Int)
    (h1 : oldest_lo w < t) (h2 : t < newest_hi w) :
    0 ≤ slot_of w t ∧ slot_of w t < 672 ∧
    (w.at (slot_of w t).toNat).timelo < t ∧ t ≤ (w.at (slot_of w t).toNat).timehi := by
  have hlo := oldest_lo_eq w hw
  have hM := MAXHIST_eq
  have hs0 : 0 ≤ slot_of w t := by unfold slot_of; omega
  have hs1 : slot_of w t < 672 := by unfold slot_of; omega
  obtain ⟨e1, e2⟩ := contiguous_at w hw (slot_of w t).toNat (by omega)
  have e3 : (((slot_of w t).toNat : Nat) : Int) = slot_of w t := Int.toNat_of_nonneg hs0
  rw [e3] at e1 e2
  refine ⟨hs0, hs1, ?_, ?_⟩
  · rw [e2]; unfold slot_of; omega
  · rw [e1]; unfold slot_of; omega

theorem add_entry_old (w : Quarters) (hw : Contiguous w) (t eligi proof : Int) (durat : Nat)
    (h : t < oldest_lo w) : add_entry w t eligi proof durat = .ok (0, w) := by
  have hlo := oldest_lo_eq w hw
  unfold add_entry
  rw [catch_up_stay t w (by omega)]
  have : too_old w t = true := by
    simp only [too_old, decide_eq_true_eq]
    exact h
  simp [this]

theorem add_entry_edge (w : Quarters) (hw : Contiguous w) (t eligi proof : Int) (durat : Nat)
    (h : t = oldest_lo w) : add_entry w t eligi proof durat = .error .slot_nonneg := by
  have hlo := oldest_lo_eq w hw
  unfold add_entry
  rw [catch_up_stay t w (by omega)]
  have h0 : too_old w t = false := by
    simp only [too_old, decide_eq_false_iff_not]
    simp only [oldest_lo] at h
    omega
  have h1 : quarterslot w t = -1 := by
    rw [quarterslot_eq w hw t (by omega) (by omega)]
    unfold slot_of
    omega
  simp [h0, h1]

theorem add_entry_in (w : Quarters) (hw : Contiguous w) (t eligi proof : Int) (durat : Nat)
    (h1 : oldest_lo w < t) (h2 : t < newest_hi w) :
    add_entry w t eligi proof durat =
      if (w.at (slot_of w t).toNat).entries.length < MAXENTR then
        .ok (1, w.put (slot_of w t).toNat
          ((w.at (slot_of w t).toNat).push t eligi proof durat))
      else .error .sz_lt_MAXENTR := by
  have hM := MAXHIST_eq
  obtain ⟨s0, s1, _, _⟩ := slot_of_spec w hw t h1 h2
  unfold add_entry
  rw [catch_up_stay t w h2]
  have h0 : too_old w t = false := by
    simp only [too_old, decide_eq_false_iff_not]
    simp only [oldest_lo] at h1
    omega
  have hq := quarterslot_eq w hw t (by omega) h2
  simp only [h0, hq, quarterhr.sz, quarterhr.push]
  have s2 : slot_of w t < (MAXHIST : Int) := by rw [hM]; omega
  simp only [s0, s2, ge_iff_le, not_true_eq_false, if_false, Bool.false_eq_true]
  by_cases hc : (w.at (slot_of w t).toNat).entries.length < MAXENTR
  · have hc2 : ((w.at (slot_of w t).toNat).entries.length : Int) < (MAXENTR : Int) := by
      exact_mod_cast hc
    simp [hc, hc2]
  · have hc2 : ¬ ((w.at (slot_of w t).toNat).entries.length : Int) < (MAXENTR : Int) := by
      intro h; exact hc (by exact_mod_cast h)
    simp [hc, hc2]

theorem add_entry_catch (w : Quarters) (t eligi proof : Int) (durat : Nat) (k : Nat)
    (h1 : newest_hi w + 900 * (k : Int) ≤ t) (h2 : t < newest_hi w + 900 * (k : Int) + 900) :
    add_entry w t eligi proof durat =
      add_entry (shift_quarters^[k + 1] w) t eligi proof durat := by
  unfold add_entry
  rw [catch_up_eq t k w h1 h2]
  rw [catch_up_stay t (shift_quarters^[k + 1] w)
    (by rw [newest_hi_iterate]; push_cast; omega)]

theorem catch_up_advances (w : Quarters) (t : Int) :
    catch_up t w = (advances w t, shift_quarters^[advances w t] w) := by
  unfold advances
  by_cases h : newest_hi w ≤ t
  · rw [if_pos h]
    have hk : ((t - newest_hi w) / 900 + 1).toNat = ((t - newest_hi w) / 900).toNat + 1 := by
      omega
    rw [hk]
    apply catch_up_eq <;> omega
  · rw [if_neg h, catch_up_stay t w (by omega)]
    rfl

theorem add_entry_after (w : Quarters) (t eligi proof : Int) (durat : Nat) :
    add_entry w t eligi proof durat =
      add_entry (shift_quarters^[advances w t] w) t eligi proof durat := by
  by_cases h : newest_hi w ≤ t
  · have hk : advances w t = ((t - newest_hi w) / 900).toNat + 1 := by
      unfold advances
      rw [if_pos h]
      omega
    rw [hk]
    apply add_entry_catch <;> omega
  · have hk : advances w t = 0 := by
      unfold advances
      rw [if_neg h]
    rw [hk]
    rfl

theorem newest_hi_advances (w : Quarters) (t : Int) :
    t < newest_hi (shift_quarters^[advances w t] w) := by
  rw [newest_hi_iterate]
  unfold advances
  by_cases h : newest_hi w ≤ t
  · rw [if_pos h]; omega
  · rw [if_neg h]; omega

/-- What a returning `add_entry` has done: `advances w t` shifts, then either nothing
(return value 0, the stamp is older than the oldest element) or one entry appended to an
element `s` whose bounds satisfy `timelo < t ≤ timehi` (return value 1). -/
theorem add_entry_cases (w w' : Quarters) (hw : Contiguous w) (t eligi proof r : Int) (durat : Nat)
    (h : add_entry w t eligi proof durat = .ok (r, w')) :
    (r = 0 ∧ t < oldest_lo w ∧ w' = w) ∨
    (r = 1 ∧ ∃ s : Nat, s < MAXHIST ∧
      ((shift_quarters^[advances w t] w).at s).timelo < t ∧
      t ≤ ((shift_quarters^[advances w t] w).at s).timehi ∧
      ((shift_quarters^[advances w t] w).at s).entries.length < MAXENTR ∧
      w' = (shift_quarters^[advances w t] w).put s
        (((shift_quarters^[advances w t] w).at s).push t eligi proof durat)) := by
  have hM := MAXHIST_eq
  rw [add_entry_after] at h
  have hv := contiguous_iterate w hw (advances w t)
  have hnew := newest_hi_advances w t
  have hlo := oldest_lo_eq _ hv
  by_cases hk : newest_hi w ≤ t
  · -- at least one shift: the stamp lies in the last 900 seconds of the window
    have hlow : oldest_lo (shift_quarters^[advances w t] w) < t := by
      rw [hlo, newest_hi_iterate]
      unfold advances
      rw [if_pos hk]
      omega
    rw [add_entry_in _ hv t eligi proof durat hlow hnew] at h
    obtain ⟨s0, s1, s2, s3⟩ := slot_of_spec _ hv t hlow hnew
    right
    split at h
    · rename_i hc
      injection h with h
      injection h with hr hw'
      exact ⟨hr.symm, _, by omega, s2, s3, hc, hw'.symm⟩
    · cases h
  · have hk0 : advances w t = 0 := by unfold advances; rw [if_neg hk]
    rw [hk0] at h hnew hlo hv ⊢
    simp only [Function.iterate_zero, id_eq] at h hnew hlo hv ⊢
    rcases lt_trichotomy t (oldest_lo w) with hlt | heq | hgt
    · rw [add_entry_old w hw t eligi proof durat hlt] at h
      injection h with h
      injection h with hr hw'
      exact Or.inl ⟨hr.symm, hlt, hw'.symm⟩
    · rw [add_entry_edge w hw t eligi proof durat heq] at h
      cases h
    · rw [add_entry_in _ hv t eligi proof durat hgt hnew] at h
      obtain ⟨s0, s1, s2, s3⟩ := slot_of_spec _ hv t hgt hnew
      right
      split at h
      · rename_i hc
        injection h with h
        injection h with hr hw'
        exact ⟨hr.symm, _, by omega, s2, s3, hc, hw'.symm⟩
      · cases h

theorem contiguous_put_push (w : Quarters) (hw : Contiguous w) (s : Nat) (hs : s < MAXHIST)
    (t eligi proof : Int) (durat : Nat) :
    Contiguous (w.put s ((w.at s).push t eligi proof durat)) := by
  obtain ⟨h1, h2⟩ := hw
  have key : ∀ j, ((w.put s ((w.at s).push t eligi proof durat)).at j).timelo = (w.at j).timelo ∧
      ((w.put s ((w.at s).push t eligi proof durat)).at j).timehi = (w.at j).timehi := by
    intro j
    rw [at_put _ _ _ _ hs]
    by_cases hj : s = j
    · subst hj; simp [quarterhr.push]
    · simp [hj]
  constructor
  · intro i hi
    rw [(key i).1, (key i).2]
    exact h1 i hi
  · intro i hi
    rw [(key i).2, (key (i + 1)).1]
    exact h2 i hi

theorem contiguous_add_entry (w w' : Quarters) (hw : Contiguous w) (t eligi proof r : Int)
    (durat : Nat) (h : add_entry w t eligi proof durat = .ok (r, w')) : Contiguous w' := by
  rcases add_entry_cases w w' hw t eligi proof r durat h with ⟨_, _, e⟩ | ⟨_, s, hs, _, _, _, e⟩
  · rw [e]; exact hw
  · rw [e]
    exact contiguous_put_push _ (contiguous_iterate w hw _) s hs t eligi proof durat

theorem newest_hi_eq (w : Quarters) : newest_hi w = (w.at 671).timehi := rfl

theorem oldest_lo_def (w : Quarters) : oldest_lo w = (w.at 0).timelo := rfl

theorem too_new_eq (w : Quarters) (t : Int) : too_new w t = decide (newest_hi w ≤ t) := rfl

theorem too_old_eq (w : Quarters) (t : Int) : too_old w t = decide (t < oldest_lo w) := rfl

theorem newest_hi_init (now : Int) :
    newest_hi (init_quarters now) = (Int.tdiv now 900 + 1) * 900 := by
  rw [newest_hi_eq, at_init now 671 (by rw [MAXHIST_eq]; omega)]
  simp

theorem oldest_lo_init (now : Int) :
    oldest_lo (init_quarters now) = Int.tdiv now 900 * 900 - 603900 := by
  rw [oldest_lo_def, at_init now 0 (by rw [MAXHIST_eq]; omega)]
  simp

/-- C1 (window invariant): every window reached from `init_quarters now` by returning
`shift_quarters` and `add_entry` calls has exactly `MAXHIST = 672` elements, each with
`timehi - timelo = 900`, and `quarters[i].timehi = quarters[i+1].timelo` for every
adjacent pair. -/
theorem window_invariant (now : Int) (w : Quarters) (h : Reach now w) :
    w.val.length = 672 ∧
    (∀ i, i < MAXHIST → (w.at i).timehi - (w.at i).timelo = 900) ∧
    (∀ i, i + 1 < MAXHIST → (w.at i).timehi = (w.at (i + 1)).timelo) := by
  refine ⟨w.property, ?_⟩
  induction h with
  | init => exact contiguous_init now
  | shift _ ih => exact contiguous_shift _ ih
  | add _ hadd ih => exact contiguous_add_entry _ _ ih _ _ _ _ _ hadd

/-- Witness of C1: the invariant at the window after one `shift_quarters` call. -/
theorem window_invariant_witness :
    Reach 1620897275 (shift_quarters (init_quarters 1620897275)) ∧
    (shift_quarters (init_quarters 1620897275)).val.length = 672 ∧
    (∀ i, i < MAXHIST →
      ((shift_quarters (init_quarters 1620897275)).at i).timehi
        - ((shift_quarters (init_quarters 1620897275)).at i).timelo = 900) ∧
    (∀ i, i + 1 < MAXHIST →
      ((shift_quarters (init_quarters 1620897275)).at i).timehi
        = ((shift_quarters (init_quarters 1620897275)).at (i + 1)).timelo) :=
  ⟨Reach.shift Reach.init, window_invariant 1620897275 _ (Reach.shift Reach.init)⟩

/-- C3 (too-old events): in a contiguous window, `add_entry` on a stamp below
`quarters[0].timelo` returns 0 and the array afterwards is the array before: no shift,
no change of any `timelo`, `timehi`, `sz` or stored entry. -/
theorem add_entry_too_old (w : Quarters) (hw : Contiguous w) (t eligi proof : Int) (durat : Nat)
    (h : t < (w.at 0).timelo) :
    add_entry w t eligi proof durat = .ok (0, w) ∧ (catch_up t w).1 = 0 := by
  refine ⟨add_entry_old w hw t eligi proof durat h, ?_⟩
  have hlo := oldest_lo_eq w hw
  simp only [oldest_lo] at hlo
  rw [catch_up_stay t w (by omega)]

/-- Witness of C3: a stamp of 1970 offered to a window initialised in May 2021. -/
theorem add_entry_too_old_witness :
    Contiguous (init_quarters 1620897275) ∧
    (1000 : Int) < ((init_quarters 1620897275).at 0).timelo ∧
    add_entry (init_quarters 1620897275) 1000 5 1 0 = .ok (0, init_quarters 1620897275) ∧
    (catch_up 1000 (init_quarters 1620897275)).1 = 0 :=
  ⟨contiguous_init _,
   by rw [← oldest_lo_def, oldest_lo_init]; decide,
   add_entry_too_old _ (contiguous_init _) 1000 5 1 0
    (by rw [← oldest_lo_def, oldest_lo_init]; decide)⟩

/-- C8 (anchoring at init): for `now ≥ 0`, after `init_quarters now` every element has
`sz = 0`, the newest element satisfies `timelo ≤ now < timehi` with `timehi` a multiple
of 900 that is the least multiple of 900 above `now`, and element `i` spans
`[hi - 900*(MAXHIST-i), hi - 900*(MAXHIST-1-i))` where `hi` is the newest `timehi`. -/
theorem init_quarters_anchor (now : Int) (hnow : 0 ≤ now) :
    (∀ i, i < MAXHIST → ((init_quarters now).at i).sz = 0) ∧
    ((init_quarters now).at (MAXHIST - 1)).timelo ≤ now ∧
    now < ((init_quarters now).at (MAXHIST - 1)).timehi ∧
    (900 : Int) ∣ ((init_quarters now).at (MAXHIST - 1)).timehi ∧
    (∀ m : Int, 900 ∣ m → now < m → ((init_quarters now).at (MAXHIST - 1)).timehi ≤ m) ∧
    (∀ i, i < MAXHIST →
      ((init_quarters now).at i).timelo
        = ((init_quarters now).at (MAXHIST - 1)).timehi - 900 * ((MAXHIST : Int) - (i : Int)) ∧
      ((init_quarters now).at i).timehi
        = ((init_quarters now).at (MAXHIST - 1)).timehi
            - 900 * ((MAXHIST : Int) - 1 - (i : Int))) := by
  have hM := MAXHIST_eq
  have hb := tdiv_bounds now hnow
  have hlast := at_init now (MAXHIST - 1) (by omega)
  rw [MAXHIST_pred] at hlast ⊢
  rw [hlast, MAXHIST_cast]
  simp only [Nat.cast_ofNat, sub_self, mul_zero, sub_zero]
  refine ⟨?_, hb.1, hb.2, Dvd.intro_left _ rfl, ?_, ?_⟩
  · intro i hi
    rw [at_init now i hi]
    rfl
  · intro m hm hlt
    obtain ⟨c, rfl⟩ := hm
    omega
  · intro i hi
    rw [at_init now i hi]
    constructor <;> simp only <;> ring

/-- Witness of C8 at 2021-05-13T09:14:35Z. -/
theorem init_quarters_anchor_witness :
    (0 : Int) ≤ 1620897275 ∧
    ((init_quarters 1620897275).at (MAXHIST - 1)).timelo ≤ 1620897275 ∧
    1620897275 < ((init_quarters 1620897275).at (MAXHIST - 1)).timehi :=
  ⟨by decide, (init_quarters_anchor 1620897275 (by decide)).2.1,
    (init_quarters_anchor 1620897275 (by decide)).2.2.1⟩

theorem slot_of_init (now t : Int) :
    slot_of (init_quarters now) t = 671 - ((Int.tdiv now 900 + 1) * 900 - t) / 900 := by
  unfold slot_of
  rw [newest_hi_init]

/-- C2 (owning-bucket placement) fails on a quarter-hour boundary.  In the window made by
`init_quarters 1620897275` the newest element spans `[1620896400, 1620897300)`; the stamp
`1620896400` is inside the window and is its lower bound, `quarterslot` returns 670, and
`add_entry` returns 1 after appending the entry to element 670, whose upper bound is the
stamp itself, while element 671 stays empty. -/
theorem add_entry_boundary_slot :
    ((init_quarters 1620897275).at 0).timelo ≤ 1620896400 ∧
    (1620896400 : Int) < ((init_quarters 1620897275).at 671).timehi ∧
    ((init_quarters 1620897275).at 671).timelo = 1620896400 ∧
    quarterslot (init_quarters 1620897275) 1620896400 = 670 ∧
    ((init_quarters 1620897275).at 670).timehi = 1620896400 ∧
    ∃ w', add_entry (init_quarters 1620897275) 1620896400 5 1 0 = .ok (1, w') ∧
      (w'.at 670).entries = [{ stamp := 1620896400, eligib := 5, proofs := 1, durati := 0 }] ∧
      (w'.at 671).entries = [] := by
  have hc := contiguous_init 1620897275
  have hlo : oldest_lo (init_quarters 1620897275) = 1620292500 := by
    rw [oldest_lo_init]; decide
  have hhi : newest_hi (init_quarters 1620897275) = 1620897300 := by
    rw [newest_hi_init]; decide
  have hs : slot_of (init_quarters 1620897275) 1620896400 = 670 := by
    rw [slot_of_init]; decide
  have h670 := at_init 1620897275 670 (by rw [MAXHIST_eq]; omega)
  have h671 := at_init 1620897275 671 (by rw [MAXHIST_eq]; omega)
  refine ⟨?_, ?_, ?_, ?_, ?_, ?_⟩
  · rw [← oldest_lo_def, hlo]; decide
  · rw [← newest_hi_eq, hhi]; decide
  · rw [h671]; decide
  · rw [quarterslot_eq _ hc _ (by rw [hlo]; decide) (by rw [hhi]; decide), hs]
  · rw [h670]; decide
  · rw [add_entry_in _ hc _ _ _ _ (by rw [hlo]; decide) (by rw [hhi]; decide), hs]
    have e : (670 : Int).toNat = 670 := rfl
    rw [e, h670]
    refine ⟨_, if_pos (by decide), ?_, ?_⟩
    · rw [at_put _ _ _ _ (by rw [MAXHIST_eq]; omega), if_pos rfl]
      rfl
    · rw [at_put _ _ _ _ (by rw [MAXHIST_eq]; omega), if_neg (by omega), h671]

/-- C10 (slot assertions) fails for the stamp equal to `quarters[0].timelo`.  In the
window made by `init_quarters 1620897275` that bound is `1620292500`; the stamp is neither
too new nor too old, `quarterslot` returns `-1`, and `add_entry` stops at
`assert( s>=0 )`. -/
theorem add_entry_oldest_bound :
    ((init_quarters 1620897275).at 0).timelo = 1620292500 ∧
    too_new (init_quarters 1620897275) 1620292500 = false ∧
    too_old (init_quarters 1620897275) 1620292500 = false ∧
    quarterslot (init_quarters 1620897275) 1620292500 = -1 ∧
    add_entry (init_quarters 1620897275) 1620292500 5 1 0 = .error .slot_nonneg := by
  have hc := contiguous_init 1620897275
  have hlo : oldest_lo (init_quarters 1620897275) = 1620292500 := by
    rw [oldest_lo_init]; decide
  have hhi : newest_hi (init_quarters 1620897275) = 1620897300 := by
    rw [newest_hi_init]; decide
  refine ⟨?_, ?_, ?_, ?_, ?_⟩
  · rw [← oldest_lo_def, hlo]
  · rw [too_new_eq, hhi]; decide
  · rw [too_old_eq, hlo]; decide
  · rw [quarterslot_eq _ hc _ (by rw [hlo]) (by rw [hhi]; decide), slot_of_init]; decide
  · exact add_entry_edge _ hc _ _ _ _ hlo.symm

theorem gather_congr {α : Type} (f g : Nat → List α) :
    ∀ n, (∀ i, i < n → f i = g i) → gather f n = gather g n := by
  intro n
  induction n with
  | zero => intro _; rfl
  | succ n ih =>
    intro h
    simp only [gather]
    rw [ih (fun i hi => h i (by omega)), h n (by omega)]

theorem gather_head {α : Type} (f : Nat → List α) :
    ∀ n, gather f (n + 1) = f 0 ++ gather (fun i => f (i + 1)) n := by
  intro n
  induction n with
  | zero => simp [gather]
  | succ n ih =>
    rw [gather, ih]
    simp [gather]

theorem gather_nil {α : Type} (f : Nat → List α) :
    ∀ n, (∀ i, i < n → f i = []) → gather f n = [] := by
  intro n
  induction n with
  | zero => intro _; rfl
  | succ n ih =>
    intro h
    simp only [gather]
    rw [ih (fun i hi => h i (by omega)), h n (by omega)]
    rfl

theorem gather_append_at {α : Type} (f g : Nat → List α) (s : Nat) (x : List α)
    (hne : ∀ j, j ≠ s → g j = f j) (hs : g s = f s ++ x) :
    ∀ n, s < n → (∀ j, s < j → j < n → f j = []) → gather g n = gather f n ++ x := by
  intro n
  induction n with
  | zero => intro h; omega
  | succ n ih =>
    intro hsn hempty
    simp only [gather]
    by_cases h : s = n
    · subst h
      rw [gather_congr g f s (fun i hi => hne i (by omega)), hs, List.append_assoc]
    · rw [ih (by omega) (fun j h1 h2 => hempty j h1 (by omega)), hne n (fun e => h e.symm),
        hempty n (by omega) (by omega)]
      simp

theorem flatMap_take_gather (l : List quarterhr) :
    ∀ n, n ≤ l.length →
      (l.take n).flatMap (fun q => q.entries)
        = gather (fun i => (l.getD i quarterhr.zero).entries) n := by
  intro n
  induction n with
  | zero => intro _; simp [gather]
  | succ n ih =>
    intro hn
    have hlt : n < l.length := by omega
    rw [List.take_succ, List.flatMap_append, ih (by omega)]
    simp only [gather]
    congr 1
    rw [List.getD_eq_getElem _ _ hlt, List.getElem?_eq_getElem hlt]
    simp

theorem stored_eq (w : Quarters) :
    stored w = gather (fun i => (w.at i).entries) MAXHIST := by
  have h := flatMap_take_gather w.val MAXHIST (by rw [w.property])
  rw [List.take_of_length_le (by rw [w.property])] at h
  exact h

theorem stored_shift (w : Quarters) :
    stored w = (w.at 0).entries ++ stored (shift_quarters w) := by
  have hM : MAXHIST = 671 + 1 := rfl
  have e1 : gather (fun i => (w.at i).entries) (671 + 1)
      = (w.at 0).entries ++ gather (fun i => (w.at (i + 1)).entries) 671 := gather_head _ 671
  have e2 : gather (fun i => ((shift_quarters w).at i).entries) (671 + 1)
      = gather (fun i => ((shift_quarters w).at i).entries) 671
        ++ ((shift_quarters w).at 671).entries := rfl
  have e3 : ((shift_quarters w).at 671).entries = [] := by
    rw [← MAXHIST_pred, at_shift_last]
    rfl
  have e4 : gather (fun i => ((shift_quarters w).at i).entries) 671
      = gather (fun i => (w.at (i + 1)).entries) 671 := by
    apply gather_congr
    intro i hi
    rw [at_shift_lt w i (by rw [MAXHIST_pred]; exact hi)]
  rw [stored_eq, stored_eq, hM, e1, e2, e3, e4, List.append_nil]

theorem stored_put_push (w : Quarters) (s : Nat) (hs : s < MAXHIST) (t eligi proof : Int)
    (durat : Nat) (hempty : ∀ j, s < j → j < MAXHIST → (w.at j).entries = []) :
    stored (w.put s ((w.at s).push t eligi proof durat))
      = stored w ++ [{ stamp := t, eligib := eligi, proofs := proof, durati := durat }] := by
  rw [stored_eq, stored_eq]
  apply gather_append_at _ _ s _ _ _ MAXHIST hs hempty
  · intro j hj
    rw [at_put _ _ _ _ hs, if_neg (fun e => hj e.symm)]
  · rw [at_put _ _ _ _ hs, if_pos rfl]
    rfl

theorem advances_cast (w : Quarters) (t : Int) (ht : newest_hi w ≤ t) :
    (advances w t : Int) = (t - newest_hi w) / 900 + 1 := by
  unfold advances
  rw [if_pos ht]
  omega

/-- C4 (catch-up): in a contiguous window, for a stamp `t` at or above the newest upper
bound, the loop of `add_entry` calls `shift_quarters` exactly
`k = (t - quarters[MAXHIST-1].timehi) / 900 + 1` times.  `add_entry` then returns 1,
except that it stops at `assert( i < MAXENTR )` when `t` equals the old newest upper bound
and the old newest element is full.  After the return, every element `i` with
`i + k ≤ MAXHIST-1` has the bounds of the old element `i+k` and its entries in order, with
at most the new entry appended; every other element holds nothing or only the new entry;
and when `k ≥ MAXHIST` the new entry is all that is stored. -/
theorem add_entry_catch_up (w : Quarters) (hw : Contiguous w) (t eligi proof : Int) (durat : Nat)
    (ht : (w.at (MAXHIST - 1)).timehi ≤ t) :
    ((catch_up t w).1 : Int) = (t - (w.at (MAXHIST - 1)).timehi) / 900 + 1 ∧
    ((add_entry w t eligi proof durat = .error .sz_lt_MAXENTR ∧
        t = (w.at (MAXHIST - 1)).timehi ∧ MAXENTR ≤ (w.at (MAXHIST - 1)).entries.length) ∨
     ∃ w', add_entry w t eligi proof durat = .ok (1, w') ∧
       (∀ i, i + (catch_up t w).1 ≤ MAXHIST - 1 →
          (w'.at i).timelo = (w.at (i + (catch_up t w).1)).timelo ∧
          (w'.at i).timehi = (w.at (i + (catch_up t w).1)).timehi ∧
          ((w'.at i).entries = (w.at (i + (catch_up t w).1)).entries ∨
           (w'.at i).entries = (w.at (i + (catch_up t w).1)).entries ++
              [{ stamp := t, eligib := eligi, proofs := proof, durati := durat }])) ∧
       (∀ i, i < MAXHIST → MAXHIST - 1 < i + (catch_up t w).1 →
          (w'.at i).entries = [] ∨
          (w'.at i).entries =
              [{ stamp := t, eligib := eligi, proofs := proof, durati := durat }]) ∧
       (MAXHIST ≤ (catch_up t w).1 →
          stored w' = [{ stamp := t, eligib := eligi, proofs := proof, durati := durat }])) := by
  have hM := MAXHIST_eq
  have ht' : newest_hi w ≤ t := ht
  have hk := advances_cast w t ht'
  have hv := contiguous_iterate w hw (advances w t)
  have hnew := newest_hi_advances w t
  have hhi := newest_hi_iterate w (advances w t)
  have hlo := oldest_lo_eq _ hv
  have hlow : oldest_lo (shift_quarters^[advances w t] w) < t := by
    rw [hlo, hhi]; omega
  obtain ⟨s0, s1, _, _⟩ := slot_of_spec _ hv t hlow hnew
  have hsN : (slot_of (shift_quarters^[advances w t] w) t).toNat < MAXHIST := by omega
  have hs670 : 670 ≤ slot_of (shift_quarters^[advances w t] w) t := by
    unfold slot_of; omega
  have hat := at_iterate_shift w (advances w t)
  rw [catch_up_advances]
  refine ⟨hk, ?_⟩
  rw [add_entry_after, add_entry_in _ hv t eligi proof durat hlow hnew]
  by_cases hc : ((shift_quarters^[advances w t] w).at
      (slot_of (shift_quarters^[advances w t] w) t).toNat).entries.length < MAXENTR
  · right
    rw [if_pos hc]
    refine ⟨_, rfl, ?_, ?_, ?_⟩
    · intro i hi
      simp only at hi
      have hiN : i < MAXHIST := by omega
      have hvi := hat i hiN
      rw [if_pos (by omega)] at hvi
      rw [at_put _ _ _ _ hsN]
      by_cases hsi : (slot_of (shift_quarters^[advances w t] w) t).toNat = i
      · rw [if_pos hsi, hsi, hvi]
        exact ⟨rfl, rfl, Or.inr rfl⟩
      · rw [if_neg hsi, hvi]
        exact ⟨rfl, rfl, Or.inl rfl⟩
    · intro i hiN hi
      simp only at hi
      have hvi := hat i hiN
      rw [if_neg (by omega)] at hvi
      rw [at_put _ _ _ _ hsN]
      by_cases hsi : (slot_of (shift_quarters^[advances w t] w) t).toNat = i
      · rw [if_pos hsi, hsi, hvi]
        exact Or.inr rfl
      · rw [if_neg hsi, hvi]
        exact Or.inl rfl
    · intro hbig
      simp only at hbig
      have hall : ∀ j, j < MAXHIST → ((shift_quarters^[advances w t] w).at j).entries = [] := by
        intro j hj
        rw [hat j hj, if_neg (by omega)]
      rw [stored_put_push _ _ hsN _ _ _ _ (fun j _ hj => hall j hj), stored_eq,
        gather_nil _ _ hall]
      rfl
  · left
    rw [if_neg hc]
    refine ⟨rfl, ?_⟩
    have hvs := hat _ hsN
    by_cases hin : (slot_of (shift_quarters^[advances w t] w) t).toNat + advances w t < MAXHIST
    · rw [if_pos hin] at hvs
      have hk1 : advances w t = 1 := by omega
      have hs : (slot_of (shift_quarters^[advances w t] w) t).toNat = 670 := by omega
      rw [hvs, hs, hk1] at hc
      have hslot : slot_of (shift_quarters^[advances w t] w) t = 670 := by omega
      constructor
      · unfold slot_of at hslot
        rw [hhi, hk1] at hslot
        show t = newest_hi w
        omega
      · rw [MAXHIST_pred]
        simp only [Nat.reduceAdd] at hc
        omega
    · rw [if_neg hin] at hvs
      rw [hvs] at hc
      exact absurd (by rw [MAXENTR_eq]; simp) hc

theorem newest_hi_def (w : Quarters) : (w.at (MAXHIST - 1)).timehi = newest_hi w := rfl

/-- Witness of C4: a jump of more than a week past a window initialised in May 2021. -/
theorem add_entry_catch_up_witness :
    Contiguous (init_quarters 1620897275) ∧
    ((init_quarters 1620897275).at (MAXHIST - 1)).timehi ≤ 1621527300 ∧
    ((catch_up 1621527300 (init_quarters 1620897275)).1 : Int)
      = (1621527300 - ((init_quarters 1620897275).at (MAXHIST - 1)).timehi) / 900 + 1 :=
  ⟨contiguous_init _,
   by rw [newest_hi_def, newest_hi_init]; decide,
   (add_entry_catch_up _ (contiguous_init _) 1621527300 5 1 0
      (by rw [newest_hi_def, newest_hi_init]; decide)).1⟩

theorem start_newest_stamp (now : Int) : (Globals.start now).newest_stamp = 0 := rfl

theorem start_quarters (now : Int) : (Globals.start now).quarters = init_quarters now := by
  simp only [Globals.start]

theorem contiguous_start (now : Int) : Contiguous (Globals.start now).quarters := by
  rw [start_quarters]
  exact contiguous_init now

theorem add_entry_ok (w : Quarters) (hw : Contiguous w) (t eligi proof : Int) (durat : Nat)
    (hlo : oldest_lo w < t) (hroom : ∀ i, i < MAXHIST → (w.at i).entries.length < MAXENTR) :
    ∃ w', add_entry w t eligi proof durat = .ok (1, w') := by
  have hM := MAXHIST_eq
  have hv := contiguous_iterate w hw (advances w t)
  have hnew := newest_hi_advances w t
  have hhi := newest_hi_iterate w (advances w t)
  have hlo0 := oldest_lo_eq w hw
  have hlov := oldest_lo_eq _ hv
  have hlow : oldest_lo (shift_quarters^[advances w t] w) < t := by
    by_cases hk : newest_hi w ≤ t
    · have := advances_cast w t hk
      omega
    · have hk0 : advances w t = 0 := by unfold advances; rw [if_neg hk]
      rw [hk0]
      exact hlo
  obtain ⟨s0, s1, _, _⟩ := slot_of_spec _ hv t hlow hnew
  have hsN : (slot_of (shift_quarters^[advances w t] w) t).toNat < MAXHIST := by omega
  rw [add_entry_after, add_entry_in _ hv t eligi proof durat hlow hnew]
  have hc : ((shift_quarters^[advances w t] w).at
      (slot_of (shift_quarters^[advances w t] w) t).toNat).entries.length < MAXENTR := by
    rw [at_iterate_shift w _ _ hsN]
    split
    · exact hroom _ (by assumption)
    · rw [MAXENTR_eq]; simp
  rw [if_pos hc]
  exact ⟨_, rfl⟩

/-- C5 as stated fails: with the window of `init_quarters 1620897275` and the mark at its
initial `0`, a matched line whose stamp `1000` is above the mark leaves the mark at `0`,
because `add_entry` returns 0 for a stamp older than the window. -/
theorem analyze_line_mark_stays :
    (1000 : Int) > (Globals.start 1620897275).newest_stamp ∧
    ∃ g', analyze_line (Globals.start 1620897275) 1000 5 1 0 = .ok g' ∧
      g'.newest_stamp = 0 ∧ g'.newest_stamp ≠ 1000 := by
  have hc := contiguous_init 1620897275
  have hlo : (1000 : Int) < oldest_lo (init_quarters 1620897275) := by
    rw [oldest_lo_init]; decide
  have hadd := add_entry_old _ hc 1000 5 1 0 hlo
  have hgt : (1000 : Int) > (Globals.start 1620897275).newest_stamp := by
    rw [start_newest_stamp]; decide
  refine ⟨hgt, ?_⟩
  unfold analyze_line
  rw [if_pos hgt, start_quarters, hadd]
  refine ⟨_, rfl, ?_, ?_⟩ <;> simp [start_newest_stamp]

/-- C5 (amended): in a contiguous window, for a matched line whose stamp `logtim` is above
the mark `newest_stamp`: if `logtim` is below `quarters[0].timelo` the acceptance block
leaves the globals as they are (the mark included); if `logtim` is at or above that bound
and the block returns, the mark equals `logtim` afterwards; and the block does return when
`logtim` is above that bound and no element is full. -/
theorem analyze_line_mark (g : Globals) (hw : Contiguous g.quarters)
    (logtim eligi proof : Int) (durat : Nat) (hgt : logtim > g.newest_stamp) :
    (logtim < (g.quarters.at 0).timelo →
      analyze_line g logtim eligi proof durat = .ok g) ∧
    ((g.quarters.at 0).timelo ≤ logtim → ∀ g',
      analyze_line g logtim eligi proof durat = .ok g' → g'.newest_stamp = logtim) ∧
    ((g.quarters.at 0).timelo < logtim →
      (∀ i, i < MAXHIST → (g.quarters.at i).sz < MAXENTR) →
      ∃ g', analyze_line g logtim eligi proof durat = .ok g' ∧ g'.newest_stamp = logtim) := by
  refine ⟨?_, ?_, ?_⟩
  · intro hold
    unfold analyze_line
    rw [if_pos hgt, add_entry_old _ hw _ _ _ _ hold]
    cases g
    simp
  · intro hin g' hret
    unfold analyze_line at hret
    rw [if_pos hgt] at hret
    cases hadd : add_entry g.quarters logtim eligi proof durat with
    | error a => rw [hadd] at hret; cases hret
    | ok res =>
      obtain ⟨r, w'⟩ := res
      rw [hadd] at hret
      rcases add_entry_cases _ _ hw _ _ _ _ _ hadd with ⟨_, hlt, _⟩ | ⟨hr, _⟩
      · rw [oldest_lo_def] at hlt
        omega
      · subst hr
        simp only at hret
        injection hret with hret
        rw [← hret]
        simp
  · intro hin hroom
    have hroom' : ∀ i, i < MAXHIST → (g.quarters.at i).entries.length < MAXENTR := by
      intro i hi
      have := hroom i hi
      unfold quarterhr.sz at this
      exact_mod_cast this
    obtain ⟨w', hadd⟩ := add_entry_ok _ hw logtim eligi proof durat hin hroom'
    unfold analyze_line
    rw [if_pos hgt, hadd]
    exact ⟨_, rfl, by simp⟩

/-- Witness of C5 (amended): the first event of a day inside a fresh window. -/
theorem analyze_line_mark_witness :
    Contiguous (Globals.start 1620897275).quarters ∧
    (1620896401 : Int) > (Globals.start 1620897275).newest_stamp ∧
    (((Globals.start 1620897275).quarters.at 0).timelo ≤ 1620896401 → ∀ g',
      analyze_line (Globals.start 1620897275) 1620896401 5 1 0 = .ok g' →
        g'.newest_stamp = 1620896401) :=
  ⟨contiguous_start _, by rw [start_newest_stamp]; decide,
   (analyze_line_mark (Globals.start 1620897275) (contiguous_start _) 1620896401 5 1 0
      (by rw [start_newest_stamp]; decide)).2.1⟩

theorem mem_gather {α : Type} (f : Nat → List α) (x : α) :
    ∀ n, x ∈ gather f n ↔ ∃ i, i < n ∧ x ∈ f i := by
  intro n
  induction n with
  | zero => simp [gather]
  | succ n ih =>
    simp only [gather, List.mem_append, ih]
    constructor
    · rintro (⟨i, hi, hx⟩ | hx)
      · exact ⟨i, by omega, hx⟩
      · exact ⟨n, by omega, hx⟩
    · rintro ⟨i, hi, hx⟩
      by_cases h : i = n
      · subst h; exact Or.inr hx
      · exact Or.inl ⟨i, by omega, hx⟩

theorem mem_stored (w : Quarters) (x : entry) :
    x ∈ stored w ↔ ∃ i, i < MAXHIST ∧ x ∈ (w.at i).entries := by
  rw [stored_eq, mem_gather]

theorem stored_iterate (w : Quarters) (k : Nat) :
    ∃ gone, stored w = gone ++ stored (shift_quarters^[k] w) := by
  induction k with
  | zero => exact ⟨[], rfl⟩
  | succ k ih =>
    obtain ⟨gone, hg⟩ := ih
    rw [Function.iterate_succ_apply']
    refine ⟨gone ++ ((shift_quarters^[k] w).at 0).entries, ?_⟩
    rw [List.append_assoc, ← stored_shift]
    exact hg

theorem ordered_start (now : Int) : Ordered (Globals.start now) := by
  have hempty : ∀ i, i < MAXHIST → ((Globals.start now).quarters.at i).entries = [] := by
    intro i hi
    rw [start_quarters, at_init now i hi]
  have hst : stored (Globals.start now).quarters = [] := by
    rw [stored_eq]
    exact gather_nil _ _ hempty
  refine ⟨contiguous_start now, ?_, ?_, ?_⟩
  · intro i hi x hx
    rw [hempty i hi] at hx
    cases hx
  · intro x hx
    rw [hst] at hx
    cases hx
  · unfold stamps
    rw [hst]
    exact List.Pairwise.nil

theorem ordered_step (g g' : Globals) (hg : Ordered g) (logtim eligi proof : Int) (durat : Nat)
    (h : analyze_line g logtim eligi proof durat = .ok g') : Ordered g' := by
  have hM := MAXHIST_eq
  obtain ⟨hc, hpos, hmark, hsort⟩ := hg
  unfold analyze_line at h
  by_cases hgt : logtim > g.newest_stamp
  · rw [if_pos hgt] at h
    cases hadd : add_entry g.quarters logtim eligi proof durat with
    | error a => rw [hadd] at h; cases h
    | ok res =>
      obtain ⟨r, w'⟩ := res
      rw [hadd] at h
      simp only at h
      injection h with h
      subst h
      rcases add_entry_cases _ _ hc _ _ _ _ _ hadd with
        ⟨hr, _, hw'⟩ | ⟨hr, s, hs, hslo, hshi, _, hw'⟩
      · subst hr hw'
        exact ⟨hc, hpos, by simpa using hmark, hsort⟩
      · subst hr
        simp only [ne_eq, one_ne_zero, not_false_eq_true, if_true]
        have hv := contiguous_iterate g.quarters hc (advances g.quarters logtim)
        have hat := at_iterate_shift g.quarters (advances g.quarters logtim)
        obtain ⟨gone, hgone⟩ := stored_iterate g.quarters (advances g.quarters logtim)
        -- facts about the shifted window
        have hposv : ∀ i, i < MAXHIST →
            ∀ x ∈ ((shift_quarters^[advances g.quarters logtim] g.quarters).at i).entries,
              ((shift_quarters^[advances g.quarters logtim] g.quarters).at i).timelo < x.stamp ∧
              x.stamp ≤ g.newest_stamp := by
          intro i hi x hx
          rw [hat i hi] at hx ⊢
          split at hx
          · rename_i hik
            rw [if_pos hik]
            refine ⟨hpos _ hik x hx, hmark x ?_⟩
            rw [mem_stored]
            exact ⟨_, hik, hx⟩
          · cases hx
        have hmarkv : ∀ x ∈ stored (shift_quarters^[advances g.quarters logtim] g.quarters),
            x.stamp ≤ g.newest_stamp := by
          intro x hx
          apply hmark
          rw [hgone]
          exact List.mem_append_right _ hx
        have hsortv : (stamps (shift_quarters^[advances g.quarters logtim] g.quarters)).Pairwise
            (fun a b => a < b) := by
          unfold stamps at hsort ⊢
          rw [hgone, List.map_append, List.pairwise_append] at hsort
          exact hsort.2.1
        have hempty : ∀ j, s < j → j < MAXHIST →
            ((shift_quarters^[advances g.quarters logtim] g.quarters).at j).entries = [] := by
          intro j hsj hj
          rw [List.eq_nil_iff_forall_not_mem]
          intro x hx
          obtain ⟨h1, h2⟩ := hposv j hj x hx
          have b1 := (contiguous_at _ hv j hj).2
          have b2 := (contiguous_at _ hv s hs).1
          omega
        have hst := stored_put_push _ s hs logtim eligi proof durat hempty
        rw [hw']
        refine ⟨contiguous_put_push _ hv s hs _ _ _ _, ?_, ?_, ?_⟩
        · intro i hi x hx
          simp only at hx ⊢
          rw [at_put _ _ _ _ hs] at hx ⊢
          by_cases hsi : s = i
          · rw [if_pos hsi] at hx ⊢
            simp only [quarterhr.push, List.mem_append, List.mem_singleton] at hx ⊢
            rcases hx with hx | hx
            · exact (hposv s hs x hx).1
            · rw [hx]; exact hslo
          · rw [if_neg hsi] at hx ⊢
            exact (hposv i hi x hx).1
        · intro x hx
          simp only at hx ⊢
          rw [hst, List.mem_append, List.mem_singleton] at hx
          rcases hx with hx | hx
          · have := hmarkv x hx
            omega
          · rw [hx]
        · simp only
          unfold stamps
          rw [hst, List.map_append, List.pairwise_append]
          refine ⟨hsortv, by simp, ?_⟩
          intro a ha b hb
          simp only [List.map_cons, List.map_nil, List.mem_singleton] at hb
          rw [List.mem_map] at ha
          obtain ⟨x, hx, rfl⟩ := ha
          have := hmarkv x hx
          omega
  · rw [if_neg hgt] at h
    injection h with h
    subst h
    exact ⟨hc, hpos, hmark, hsort⟩

theorem ordered_of_accepted (now : Int) (g : Globals) (h : Accepted now g) : Ordered g := by
  induction h with
  | start => exact ordered_start now
  | step _ hstep ih => exact ordered_step _ _ ih _ _ _ _ hstep

/-- C6 (no duplicates, nothing out of order): in every state that the acceptance block
reaches from a freshly initialised window with mark 0, a line whose stamp is at most the
mark leaves the globals (all elements and the mark) unchanged; the stored stamps, read from
the oldest element to the newest and in slot order, increase strictly, so none occurs
twice; and none exceeds the mark. -/
theorem accepted_stamps_increase (now : Int) (g : Globals) (h : Accepted now g) :
    (∀ logtim eligi proof durat, logtim ≤ g.newest_stamp →
      analyze_line g logtim eligi proof durat = .ok g) ∧
    (stamps g.quarters).Pairwise (fun a b => a < b) ∧
    (stamps g.quarters).Nodup ∧
    (∀ x ∈ stamps g.quarters, x ≤ g.newest_stamp) := by
  obtain ⟨_, _, hmark, hsort⟩ := ordered_of_accepted now g h
  refine ⟨?_, hsort, ?_, ?_⟩
  · intro logtim eligi proof durat hle
    unfold analyze_line
    rw [if_neg (by omega)]
  · exact hsort.imp (fun hab => ne_of_lt hab)
  · intro x hx
    unfold stamps at hx
    rw [List.mem_map] at hx
    obtain ⟨e, he, rfl⟩ := hx
    exact hmark e he

theorem feed_append (l1 l2 : List (Int × Int × Int × Nat)) :
    ∀ g g', feed g l1 = .ok g' → feed g (l1 ++ l2) = feed g' l2 := by
  induction l1 with
  | nil =>
    intro g g' h
    simp only [feed] at h
    injection h with h
    subst h
    rfl
  | cons ev rest ih =>
    intro g g' h
    obtain ⟨t, e, p, d⟩ := ev
    simp only [feed, List.cons_append] at h ⊢
    cases hstep : analyze_line g t e p d with
    | error a => rw [hstep] at h; cases h
    | ok g1 =>
      rw [hstep] at h
      exact ih _ _ h

theorem accepted_feed (now : Int) (l : List (Int × Int × Int × Nat)) :
    ∀ g g', Accepted now g → feed g l = .ok g' → Accepted now g' := by
  induction l with
  | nil =>
    intro g g' hg h
    simp only [feed] at h
    injection h with h
    subst h
    exact hg
  | cons ev rest ih =>
    intro g g' hg h
    obtain ⟨t, e, p, d⟩ := ev
    simp only [feed] at h
    cases hstep : analyze_line g t e p d with
    | error a => rw [hstep] at h; cases h
    | ok g1 =>
      rw [hstep] at h
      exact ih _ _ (Accepted.step hg hstep) h

theorem burst_succ (n : Nat) :
    burst (n + 1) = burst n ++ [((1620896401 : Int) + (n : Int), (5 : Int), (0 : Int), 0)] := by
  unfold burst
  rw [List.range_succ, List.map_append]
  rfl

theorem newest_hi_put_push (w : Quarters) (s : Nat) (hs : s < MAXHIST) (t eligi proof : Int)
    (durat : Nat) :
    newest_hi (w.put s ((w.at s).push t eligi proof durat)) = newest_hi w := by
  rw [newest_hi_eq, newest_hi_eq, at_put _ _ _ _ hs]
  by_cases h : s = 671
  · rw [if_pos h, h]; rfl
  · rw [if_neg h]

/-- The state after the first `n ≤ 180` lines of the burst: all of them sit in the newest
element. -/
theorem feed_burst (n : Nat) (hn : n ≤ 180) :
    ∃ g, feed (Globals.start 1620897275) (burst n) = .ok g ∧
      Contiguous g.quarters ∧ newest_hi g.quarters = 1620897300 ∧
      (g.quarters.at 671).entries.length = n ∧ g.newest_stamp ≤ 1620896400 + (n : Int) := by
  have hM := MAXHIST_eq
  induction n with
  | zero =>
    refine ⟨Globals.start 1620897275, rfl, contiguous_start _, ?_, ?_, ?_⟩
    · rw [start_quarters, newest_hi_init]; decide
    · rw [start_quarters, at_init _ 671 (by omega)]; rfl
    · rw [start_newest_stamp]; decide
  | succ n ih =>
    obtain ⟨g, hfeed, hc, hhi, hlen, hmark⟩ := ih (by omega)
    have hlo := oldest_lo_eq _ hc
    have hs : slot_of g.quarters ((1620896401 : Int) + (n : Int)) = 671 := by
      unfold slot_of; omega
    have hadd := add_entry_in g.quarters hc ((1620896401 : Int) + (n : Int)) 5 0 0
      (by omega) (by omega)
    have e671 : (671 : Int).toNat = 671 := rfl
    rw [hs, e671, if_pos (by rw [hlen, MAXENTR_eq]; omega)] at hadd
    rw [burst_succ, feed_append _ _ _ _ hfeed]
    simp only [feed]
    unfold analyze_line
    rw [if_pos (by omega), hadd]
    refine ⟨_, rfl, contiguous_put_push _ hc 671 (by omega) _ _ _ _, ?_, ?_, ?_⟩
    · simp only
      rw [newest_hi_put_push _ _ (by omega), hhi]
    · simp only
      rw [at_put _ _ _ _ (by omega), if_pos rfl]
      simp only [quarterhr.push, List.length_append, List.length_singleton, hlen]
    · simp only [ne_eq, one_ne_zero, not_false_eq_true, if_true]
      push_cast
      omega

/-- C7 (capacity) fails on a burst of one event per second.  From the fresh state of
`init_quarters 1620897275`, the 181 lines stamped `1620896401`, ..., `1620896581`
(strictly increasing whole seconds, all inside the newest quarter-hour) are all above
the mark when they arrive; the first 180 fill the newest element to `sz = 180`, and the
181st stops at `assert( i < MAXENTR )`. -/
theorem feed_burst_overflow :
    ((burst 181).map (fun ev => ev.1)).Pairwise (fun a b => a < b) ∧
    (∃ g, feed (Globals.start 1620897275) (burst 180) = .ok g ∧
      (g.quarters.at 671).sz = 180) ∧
    feed (Globals.start 1620897275) (burst 181) = .error .sz_lt_MAXENTR := by
  obtain ⟨g, hfeed, hc, hhi, hlen, hmark⟩ := feed_burst 180 (by omega)
  refine ⟨?_, ⟨g, hfeed, ?_⟩, ?_⟩
  · unfold burst
    rw [List.map_map, List.pairwise_map]
    exact (List.pairwise_lt_range 181).imp (fun hab => by simp only [Function.comp]; omega)
  · unfold quarterhr.sz
    rw [hlen]
    rfl
  · have hlo := oldest_lo_eq _ hc
    have hs : slot_of g.quarters ((1620896401 : Int) + ((180 : Nat) : Int)) = 671 := by
      unfold slot_of; omega
    have hadd := add_entry_in g.quarters hc ((1620896401 : Int) + ((180 : Nat) : Int)) 5 0 0
      (by omega) (by omega)
    have e671 : (671 : Int).toNat = 671 := rfl
    rw [hs, e671, if_neg (by rw [hlen, MAXENTR_eq]; omega)] at hadd
    rw [burst_succ, feed_append _ _ _ _ hfeed]
    simp only [feed]
    unfold analyze_line
    rw [if_pos (by omega), hadd]

/-- Witness of C6: the state after the first 180 lines of the burst. -/
theorem accepted_stamps_increase_witness :
    ∃ g, Accepted 1620897275 g ∧ (g.quarters.at 671).entries.length = 180 ∧
      (stamps g.quarters).Pairwise (fun a b => a < b) ∧
      (∀ x ∈ stamps g.quarters, x ≤ g.newest_stamp) := by
  obtain ⟨g, hfeed, _, _, hlen, _⟩ := feed_burst 180 (by omega)
  have hacc := accepted_feed 1620897275 _ _ _ Accepted.start hfeed
  exact ⟨g, hacc, hlen, (accepted_stamps_increase 1620897275 g hacc).2.1,
    (accepted_stamps_increase 1620897275 g hacc).2.2.2⟩

theorem proofs_in_cons (s0 s1 : Int) (a : entry) (l : List entry) :
    proofs_in s0 s1 (a :: l)
      = (if s0 ≤ a.stamp ∧ a.stamp < s1 then a.proofs else 0) + proofs_in s0 s1 l := by
  unfold proofs_in
  by_cases h : s0 ≤ a.stamp ∧ a.stamp < s1
  · rw [List.filter_cons_of_pos (by simpa using h), if_pos h]
    simp
  · rw [List.filter_cons_of_neg (by simpa using h), if_neg h]
    simp

theorem proofs_in_nonneg (s0 s1 : Int) (l : List entry) (hnn : ∀ e ∈ l, 0 ≤ e.proofs) :
    0 ≤ proofs_in s0 s1 l := by
  induction l with
  | nil => exact le_refl _
  | cons a l ih =>
    rw [proofs_in_cons]
    have ha := hnn a (List.mem_cons_self _ _)
    have := ih (fun e he => hnn e (List.mem_cons_of_mem _ he))
    split <;> omega

theorem proofs_in_pos (s0 s1 : Int) (l : List entry) (hnn : ∀ e ∈ l, 0 ≤ e.proofs)
    (hex : ∃ e ∈ l, 1 ≤ e.proofs ∧ s0 ≤ e.stamp ∧ e.stamp < s1) :
    1 ≤ proofs_in s0 s1 l := by
  induction l with
  | nil =>
    obtain ⟨e, he, _⟩ := hex
    cases he
  | cons a l ih =>
    rw [proofs_in_cons]
    have ha := hnn a (List.mem_cons_self _ _)
    have hrest := proofs_in_nonneg s0 s1 l (fun e he => hnn e (List.mem_cons_of_mem _ he))
    obtain ⟨e, he, hp, h0, h1⟩ := hex
    rcases List.mem_cons.mp he with rfl | hmem
    · rw [if_pos ⟨h0, h1⟩]
      omega
    · have := ih (fun e he => hnn e (List.mem_cons_of_mem _ he)) ⟨e, hmem, hp, h0, h1⟩
      split <;> omega

/-- Below `2 ^ 31` the `int` variable `proofs` of `draw_column` holds the sum of the
proof counts in `[s0, s1)`. -/
theorem row_step_proofs (r0 r1 s0 s1 : Int) (l : List entry)
    (hnn : ∀ e ∈ l, 0 ≤ e.proofs) :
    ∀ acc : Int × Int × Int, 0 ≤ acc.2.2 → acc.2.2 + proofs_in s0 s1 l < 2147483648 →
      (l.foldl (row_step r0 r1 s0 s1) acc).2.2 = acc.2.2 + proofs_in s0 s1 l := by
  induction l with
  | nil =>
    intro acc _ _
    simp [proofs_in]
  | cons a l ih =>
    intro acc h0 hlt
    have ha : 0 ≤ a.proofs := hnn a (List.mem_cons_self _ _)
    have hnn' : ∀ e ∈ l, 0 ≤ e.proofs := fun e he => hnn e (List.mem_cons_of_mem _ he)
    have hrest := proofs_in_nonneg s0 s1 l hnn'
    rw [proofs_in_cons] at hlt ⊢
    rw [List.foldl_cons]
    by_cases hin : s0 ≤ a.stamp ∧ a.stamp < s1
    · rw [if_pos hin] at hlt ⊢
      have hstep : (row_step r0 r1 s0 s1 acc a).2.2 = acc.2.2 + a.proofs := by
        unfold row_step
        simp only
        rw [if_pos (show a.stamp ≥ s0 ∧ a.stamp < s1 from hin)]
        simp only [int_add]
        exact to_int_id _ (by omega) (by omega)
      rw [ih hnn' _ (by rw [hstep]; omega) (by rw [hstep]; omega), hstep]
      ring
    · rw [if_neg hin] at hlt ⊢
      have hstep : (row_step r0 r1 s0 s1 acc a).2.2 = acc.2.2 := by
        unfold row_step
        simp only
        rw [if_neg (show ¬ (a.stamp ≥ s0 ∧ a.stamp < s1) from hin)]
      rw [ih hnn' _ (by rw [hstep]; omega) (by rw [hstep]; omega), hstep]
      omega

theorem draw_row_proofs (ramp : Nat → Nat → Nat) (ramp_index : Int → Int → Nat) (imw : Int)
    (qu : quarterhr) (h y : Int)
    (hp : (qu.entries.foldl
      (row_step
        (qu.timelo + int_div (int_mul 900 (if y > 0 then int_sub y 1 else int_add y 0)) h)
        (qu.timelo + int_div (int_mul 900
          (if y < int_sub h 1 then int_add y 2 else int_add y 1)) h)
        (qu.timelo + int_div (int_mul 900 (int_add y 0)) h)
        (qu.timelo + int_div (int_mul 900 (int_add y 1)) h)) (0, 0, 0)).2.2 ≠ 0) :
    draw_row ramp ramp_index imw qu h y = (int_mul y imw, 0xFFFF4040) := by
  simp only [draw_row]
  rw [if_pos hp, if_pos hp, if_pos hp]
  rfl

theorem int_div_nonneg (a h : Int) (h0 : 0 ≤ a) (h1 : a ≤ 2147483647) (hh : 1 ≤ h) :
    int_div a h = a / h := by
  unfold int_div
  rw [Int.tdiv_eq_ediv h0 (by omega)]
  have q0 : 0 ≤ a / h := Int.ediv_nonneg h0 (by omega)
  have q1 : a / h ≤ a := Int.ediv_le_self h h0
  exact to_int_id _ (by omega) (by omega)

theorem draw_column_row (ramp : Nat → Nat → Nat) (ramp_index : Int → Int → Nat) (imw : Int)
    (quarters : Quarters) (nr : Nat) (h : Int) (y : Nat) (hnr : nr < MAXHIST)
    (hy : (y : Int) < h) :
    (draw_column ramp ramp_index imw quarters nr h)[y]?
      = some (draw_row ramp ramp_index imw (quarters.at (MAXHIST - 1 - nr)) h y) := by
  have hM := MAXHIST_eq
  have hqv : int_sub (int_sub (MAXHIST : Int) 1) (nr : Int) = (MAXHIST : Int) - 1 - (nr : Int) := by
    unfold int_sub
    rw [to_int_id ((MAXHIST : Int) - 1) (by omega) (by omega)]
    exact to_int_id _ (by omega) (by omega)
  have hq : ¬ ((MAXHIST : Int) - 1 - (nr : Int) < 0) := by omega
  have hqn : ((MAXHIST : Int) - 1 - (nr : Int)).toNat = MAXHIST - 1 - nr := by omega
  have hyl : y < h.toNat := by omega
  unfold draw_column
  simp only
  rw [hqv, if_neg hq, List.getElem?_map, List.getElem?_range hyl, hqn]
  rfl

theorem row_range (y : Nat) (h : Int) (hh : 1 ≤ h)
    (hprod : 900 * ((y : Int) + 1) ≤ 2147483647) :
    int_div (int_mul 900 (int_add (y : Int) 0)) h = 900 * (y : Int) / h ∧
    int_div (int_mul 900 (int_add (y : Int) 1)) h = 900 * ((y : Int) + 1) / h := by
  have a0 : int_add (y : Int) 0 = (y : Int) := by
    unfold int_add
    exact to_int_id _ (by omega) (by omega)
  have a1 : int_add (y : Int) 1 = (y : Int) + 1 := by
    unfold int_add
    exact to_int_id _ (by omega) (by omega)
  have m0 : int_mul 900 (y : Int) = 900 * (y : Int) := by
    unfold int_mul
    exact to_int_id _ (by omega) (by omega)
  have m1 : int_mul 900 ((y : Int) + 1) = 900 * ((y : Int) + 1) := by
    unfold int_mul
    exact to_int_id _ (by omega) (by omega)
  constructor
  · rw [a0, m0, int_div_nonneg _ _ (by omega) (by omega) hh]
  · rw [a1, m1, int_div_nonneg _ _ (by omega) (by omega) hh]

/-- C9 (amended): for a column `nr < MAXHIST`, a height `h ≥ 1` and a row `0 ≤ y < h`
with `900*(y+1) ≤ INT_MAX`, if all proof counts stored in element `MAXHIST-1-nr` are
`≥ 0`, those with a stamp in `[timelo + 900*y/h, timelo + 900*(y+1)/h)` sum to at most
`INT_MAX`, and some stored entry with proof count `≥ 1` has its stamp in that range, then
the `y`-th store of `draw_column` is `img[ y*imw ] = 0xFFFF4040`, for every colour ramp,
every ramp index and every image width. -/
theorem draw_column_proof_pixel (ramp : Nat → Nat → Nat) (ramp_index : Int → Int → Nat)
    (imw : Int) (quarters : Quarters) (nr : Nat) (h : Int) (y : Nat)
    (hnr : nr < MAXHIST) (hh : 1 ≤ h) (hy : (y : Int) < h)
    (hprod : 900 * ((y : Int) + 1) ≤ 2147483647)
    (hnn : ∀ e ∈ (quarters.at (MAXHIST - 1 - nr)).entries, 0 ≤ e.proofs)
    (hsum : proofs_in
      ((quarters.at (MAXHIST - 1 - nr)).timelo + 900 * (y : Int) / h)
      ((quarters.at (MAXHIST - 1 - nr)).timelo + 900 * ((y : Int) + 1) / h)
      (quarters.at (MAXHIST - 1 - nr)).entries ≤ 2147483647)
    (hex : ∃ e ∈ (quarters.at (MAXHIST - 1 - nr)).entries, 1 ≤ e.proofs ∧
      (quarters.at (MAXHIST - 1 - nr)).timelo + 900 * (y : Int) / h ≤ e.stamp ∧
      e.stamp < (quarters.at (MAXHIST - 1 - nr)).timelo + 900 * ((y : Int) + 1) / h) :
    (draw_column ramp ramp_index imw quarters nr h)[y]?
      = some (int_mul (y : Int) imw, 0xFFFF4040) := by
  rw [draw_column_row ramp ramp_index imw quarters nr h y hnr hy]
  apply congrArg some
  apply draw_row_proofs
  obtain ⟨e0, e1⟩ := row_range y h hh hprod
  have hpos := proofs_in_pos _ _ _ hnn hex
  have hlt : (0 : Int) + proofs_in
      ((quarters.at (MAXHIST - 1 - nr)).timelo + 900 * (y : Int) / h)
      ((quarters.at (MAXHIST - 1 - nr)).timelo + 900 * ((y : Int) + 1) / h)
      (quarters.at (MAXHIST - 1 - nr)).entries < 2147483648 := by
    rw [zero_add]
    exact lt_of_le_of_lt hsum (by norm_num)
  have hval := row_step_proofs
    ((quarters.at (MAXHIST - 1 - nr)).timelo + int_div (int_mul 900
      (if (y : Int) > 0 then int_sub (y : Int) 1 else int_add (y : Int) 0)) h)
    ((quarters.at (MAXHIST - 1 - nr)).timelo + int_div (int_mul 900
      (if (y : Int) < int_sub h 1 then int_add (y : Int) 2 else int_add (y : Int) 1)) h)
    ((quarters.at (MAXHIST - 1 - nr)).timelo + 900 * (y : Int) / h)
    ((quarters.at (MAXHIST - 1 - nr)).timelo + 900 * ((y : Int) + 1) / h)
    _ hnn (0, 0, 0) (le_refl _) hlt
  rw [e0, e1, hval]
  show (0 : Int) + _ ≠ 0
  rw [zero_add]
  exact ne_of_gt (lt_of_lt_of_le zero_lt_one hpos)

theorem proof_quarters_at :
    proof_quarters.at (MAXHIST - 1 - 0) =
      { entries := [{ stamp := 1620896401, eligib := 5, proofs := 1, durati := 0 }]
        timelo := 1620896400
        timehi := 1620897300 } := by
  unfold proof_quarters
  rw [at_put _ _ _ _ (by rw [MAXHIST_eq]; omega)]
  exact if_pos rfl

/-- Witness of C9 (amended): column 0 of a ten-row image over `proof_quarters`; row 0
covers the first 90 seconds of the quarter-hour and is drawn in the proof colour, here
with an all-zero ramp. -/
theorem draw_column_proof_pixel_witness :
    (0 : Nat) < MAXHIST ∧ (1 : Int) ≤ 10 ∧ ((0 : Nat) : Int) < 10 ∧
    900 * (((0 : Nat) : Int) + 1) ≤ 2147483647 ∧
    (draw_column (fun _ _ => 0) (fun _ _ => 0) 80 proof_quarters (0 : Nat) 10)[0]?
      = some (int_mul ((0 : Nat) : Int) 80, 0xFFFF4040) :=
  ⟨by decide, by decide, by decide, by decide,
   draw_column_proof_pixel (fun _ _ => 0) (fun _ _ => 0) 80 proof_quarters 0 10 0
    (by decide) (by decide) (by decide) (by decide)
    (by
      rw [proof_quarters_at]
      intro e he
      simp only [List.mem_singleton] at he
      rw [he]
      decide)
    (by
      rw [proof_quarters_at]
      decide)
    (by
      rw [proof_quarters_at]
      exact ⟨_, List.mem_singleton_self _, by decide, by decide, by decide⟩)⟩

theorem late_quarters_at :
    late_quarters.at (MAXHIST - 1 - 0) =
      { entries := [{ stamp := 1620897299, eligib := 5, proofs := 1, durati := 0 }]
        timelo := 1620896400
        timehi := 1620897300 } := by
  unfold late_quarters
  rw [at_put _ _ _ _ (by rw [MAXHIST_eq]; omega)]
  exact if_pos rfl

/-- One matched line that lands in the newest element of a window whose newest
quarter-hour is `[1620896400, 1620897300)`. -/
theorem analyze_line_newest (g : Globals) (hc : Contiguous g.quarters)
    (hhi : newest_hi g.quarters = 1620897300) (l : List entry)
    (hat : g.quarters.at 671 = { entries := l, timelo := 1620896400, timehi := 1620897300 })
    (hlen : l.length < 180) (t eligi proof : Int) (durat : Nat)
    (hgt : g.newest_stamp < t) (h1 : 1620896400 < t) (h2 : t < 1620897300) :
    ∃ g', analyze_line g t eligi proof durat = .ok g' ∧ Contiguous g'.quarters ∧
      newest_hi g'.quarters = 1620897300 ∧
      g'.quarters.at 671 =
        { entries := l ++ [{ stamp := t, eligib := eligi, proofs := proof, durati := durat }]
          timelo := 1620896400
          timehi := 1620897300 } ∧
      g'.newest_stamp = t := by
  have hM := MAXHIST_eq
  have hlo := oldest_lo_eq _ hc
  have hs : slot_of g.quarters t = 671 := by
    unfold slot_of; omega
  have hadd := add_entry_in g.quarters hc t eligi proof durat (by omega) (by omega)
  have e671 : (671 : Int).toNat = 671 := rfl
  rw [hs, e671, hat, if_pos (by rw [MAXENTR_eq]; exact hlen)] at hadd
  unfold analyze_line
  rw [if_pos (by omega), hadd]
  refine ⟨_, rfl, ?_, ?_, ?_, ?_⟩
  · have := contiguous_put_push _ hc 671 (by omega) t eligi proof durat
    rw [hat] at this
    exact this
  · have := newest_hi_put_push g.quarters 671 (by omega) t eligi proof durat
    rw [hat] at this
    simp only
    rw [this, hhi]
  · simp only
    rw [at_put _ _ _ _ (by omega), if_pos rfl]
    rfl
  · simp

theorem feed_cons (g g' : Globals) (t eligi proof : Int) (durat : Nat)
    (rest : List (Int × Int × Int × Nat)) (h : analyze_line g t eligi proof durat = .ok g') :
    feed g ((t, eligi, proof, durat) :: rest) = feed g' rest := by
  simp only [feed, h]

theorem feed_wrap_lines :
    ∃ g, feed (Globals.start 1620897275) wrap_lines = .ok g ∧
      g.quarters.at 671 =
        { entries := [{ stamp := 1620896401, eligib := 5, proofs := 2147483647, durati := 0 },
                      { stamp := 1620896402, eligib := 5, proofs := 2147483647, durati := 0 },
                      { stamp := 1620896403, eligib := 5, proofs := 2, durati := 0 }]
          timelo := 1620896400
          timehi := 1620897300 } := by
  have c0 := contiguous_start 1620897275
  have hi0 : newest_hi (Globals.start 1620897275).quarters = 1620897300 := by
    rw [start_quarters, newest_hi_init]; decide
  have at0 : (Globals.start 1620897275).quarters.at 671
      = { entries := [], timelo := 1620896400, timehi := 1620897300 } := by
    rw [start_quarters, at_init _ 671 (by rw [MAXHIST_eq]; omega)]
    decide
  obtain ⟨g1, s1, c1, hi1, at1, m1⟩ := analyze_line_newest _ c0 hi0 [] at0 (by decide)
    1620896401 5 2147483647 0 (by rw [start_newest_stamp]; decide) (by decide) (by decide)
  obtain ⟨g2, s2, c2, hi2, at2, m2⟩ := analyze_line_newest _ c1 hi1 _ at1 (by decide)
    1620896402 5 2147483647 0 (by rw [m1]; decide) (by decide) (by decide)
  obtain ⟨g3, s3, _, _, at3, _⟩ := analyze_line_newest _ c2 hi2 _ at2 (by decide)
    1620896403 5 2 0 (by rw [m2]; decide) (by decide) (by decide)
  refine ⟨g3, ?_, at3⟩
  unfold wrap_lines
  rw [feed_cons _ _ _ _ _ _ _ s1, feed_cons _ _ _ _ _ _ _ s2, feed_cons _ _ _ _ _ _ _ s3]
  rfl

/-- C9 as stated fails where the `int` arithmetic of `draw_column` wraps.

First, after the three accepted lines `wrap_lines` the newest element holds proof counts
`2147483647, 2147483647, 2`, all `≥ 0` and all stamped in the only row of a one-row
image; their `int` sum is `0`, `if ( proofs )` does not fire, and the pixel is the ramp
colour (`0xFF000000` for an all-zero ramp), not `0xFFFF4040`.

Second, for `h = 2386093` and `y = 2386092` the product `900*(y+1)` exceeds `INT_MAX`;
the event of `late_quarters`, with one proof and stamp `timelo + 899`, lies in
`[timelo + 900*y/h, timelo + 900*(y+1)/h) = [timelo + 899, timelo + 900)`, but the row
counts no proof and the pixel is again the ramp colour. -/
theorem draw_column_proof_wraps :
    (∃ g, feed (Globals.start 1620897275) wrap_lines = .ok g ∧
      (∀ e ∈ (g.quarters.at (MAXHIST - 1 - 0)).entries, 0 ≤ e.proofs) ∧
      (∃ e ∈ (g.quarters.at (MAXHIST - 1 - 0)).entries, 1 ≤ e.proofs ∧
        (g.quarters.at (MAXHIST - 1 - 0)).timelo + 900 * ((0 : Nat) : Int) / 1 ≤ e.stamp ∧
        e.stamp < (g.quarters.at (MAXHIST - 1 - 0)).timelo
          + 900 * (((0 : Nat) : Int) + 1) / 1) ∧
      (draw_column (fun _ _ => 0) (fun _ _ => 0) 80 g.quarters (0 : Nat) 1)[0]?
        = some (0, 0xFF000000)) ∧
    ((∀ e ∈ (late_quarters.at (MAXHIST - 1 - 0)).entries, 0 ≤ e.proofs) ∧
      (∃ e ∈ (late_quarters.at (MAXHIST - 1 - 0)).entries, 1 ≤ e.proofs ∧
        (late_quarters.at (MAXHIST - 1 - 0)).timelo
          + 900 * ((2386092 : Nat) : Int) / 2386093 ≤ e.stamp ∧
        e.stamp < (late_quarters.at (MAXHIST - 1 - 0)).timelo
          + 900 * (((2386092 : Nat) : Int) + 1) / 2386093) ∧
      (draw_column (fun _ _ => 0) (fun _ _ => 0) 80 late_quarters (0 : Nat) 2386093)[2386092]?
        = some (190887360, 0xFF000000)) := by
  have e671 : MAXHIST - 1 - 0 = 671 := rfl
  constructor
  · obtain ⟨g, hfeed, hat⟩ := feed_wrap_lines
    refine ⟨g, hfeed, ?_, ?_, ?_⟩
    · rw [e671, hat]
      decide
    · rw [e671, hat]
      exact ⟨_, List.mem_cons_self _ _, by decide, by decide, by decide⟩
    · rw [draw_column_row _ _ _ _ 0 1 0 (by decide) (by decide), e671, hat]
      decide
  · refine ⟨?_, ?_, ?_⟩
    · rw [late_quarters_at]
      decide
    · rw [late_quarters_at]
      exact ⟨_, List.mem_singleton_self _, by decide, by decide, by decide⟩
    · rw [draw_column_row _ _ _ _ 0 2386093 2386092 (by decide) (by decide), late_quarters_at]
      decide

end ChiaHarvestGraph
